import Mathlib

/-!
# Toy Pascal lexer and disassembler

A shallow embedding of the Go packages `v2/compiler/token` (token classes and the
keyword table), `v2/compiler/lexer` (the scanner), `v2/assembler/isa` (opcodes, the two
opcode tables and the byte conversions) and of the loop of `v2/assembler/disasm.go`,
followed by theorems about them.

Modelling conventions.

* A Go `string` is a sequence of bytes: `Bytes = List Nat`, every element standing
  for a byte value `0 .. 255`.  `bytes "if"` is the byte sequence of an ASCII literal.
* Go `int` fields (`position`, `readPosition`, `line`, `column`) are natural numbers;
  they only ever count upwards from `0` or `1`.
* The `*Lexer` receiver is passed explicitly: a method that mutates the lexer returns
  the new lexer value.
* Each `for cond(l.ch) { l.readChar() }` loop is the fuelled function `readWhile`;
  running out of fuel and a Go run-time panic (a slice expression out of range) are
  both the result `none`.  The theorems show that neither happens.
* An `int32` is an integer from `-2^31` to `2^31 - 1`; the conversions `uint32(n)` and
  `int32(v)` are written with `% 2^32`.
* A Go `map` is its lookup: an association list with distinct keys for a map literal, a
  function to `Option` for the map filled by `init`.
* What `Disassemble` prints is the list of the printed items, in order.
-/

namespace ToyPascal

/-- A Go string: a sequence of bytes. -/
abbrev Bytes := List Nat

/-- The byte sequence of an ASCII string literal. -/
def bytes (s : String) : Bytes := s.toList.map Char.toNat

/-! ## Package `token` -/

/-- Go: `type TokenType string`. -/
abbrev TokenType := String

/-- Go: `type Token struct { Type; Literal; Line; Column }`. -/
structure Token where
  Typ : TokenType
  Literal : Bytes
  Line : Nat
  Column : Nat
deriving DecidableEq, Repr

def ILLEGAL : TokenType := "ILLEGAL"
def EOF : TokenType := "EOF"
def IDENT : TokenType := "IDENT"
def INT : TokenType := "INT"
def ASSIGN : TokenType := ":="
def PLUS : TokenType := "+"
def MINUS : TokenType := "-"
def ASTERISK : TokenType := "*"
def SLASH : TokenType := "/"
def CARET : TokenType := "^"
def DOT : TokenType := "."
def LT : TokenType := "<"
def GT : TokenType := ">"
def EQ : TokenType := "="
def NOT_EQ : TokenType := "<>"
def LTE : TokenType := "<="
def GTE : TokenType := ">="
def COMMA : TokenType := ","
def SEMICOLON : TokenType := ";"
def COLON : TokenType := ":"
def LPAREN : TokenType := "("
def RPAREN : TokenType := ")"
def FUNCTION : TokenType := "FUNCTION"
def PROCEDURE : TokenType := "PROCEDURE"
def TYPE : TokenType := "TYPE"
def VAR : TokenType := "VAR"
def RECORD : TokenType := "RECORD"
def IF : TokenType := "IF"
def ELSE : TokenType := "ELSE"
def THEN : TokenType := "THEN"
def WHILE : TokenType := "WHILE"
def DO : TokenType := "DO"
def BEGIN : TokenType := "BEGIN"
def END : TokenType := "END"
def NIL : TokenType := "NIL"

/-- Go: `var keywords = map[string]TokenType{...}` (the keys are pairwise distinct). -/
def keywords : List (Bytes × TokenType) :=
  [ (bytes "function", FUNCTION),
    (bytes "procedure", PROCEDURE),
    (bytes "type", TYPE),
    (bytes "var", VAR),
    (bytes "record", RECORD),
    (bytes "if", IF),
    (bytes "else", ELSE),
    (bytes "then", THEN),
    (bytes "while", WHILE),
    (bytes "do", DO),
    (bytes "begin", BEGIN),
    (bytes "end", END),
    (bytes "nil", NIL) ]

/-- Go: `func LookupIdent(ident string) TokenType`. -/
def LookupIdent (ident : Bytes) : TokenType :=
  match keywords.lookup ident with
  | some tok => tok
  | none => IDENT

/-! ## Package `lexer` -/

/-- Go: `type Lexer struct`. -/
structure Lexer where
  input : Bytes
  position : Nat
  readPosition : Nat
  ch : Nat
  line : Nat
  column : Nat
deriving DecidableEq, Repr

/-- Go: `func (l *Lexer) readChar()`. -/
def readChar (l : Lexer) : Lexer :=
  let ch := if l.readPosition ≥ l.input.length then 0 else l.input.getD l.readPosition 0
  let l1 : Lexer :=
    { l with ch := ch, position := l.readPosition, readPosition := l.readPosition + 1 }
  if ch = 10 then { l1 with line := l1.line + 1, column := 0 }
  else { l1 with column := l1.column + 1 }

/-- Go: `func New(input string) *Lexer`. -/
def New (input : Bytes) : Lexer :=
  readChar { input := input, position := 0, readPosition := 0, ch := 0, line := 1, column := 0 }

/-- Go: `func (l *Lexer) peekChar() byte`. -/
def peekChar (l : Lexer) : Nat :=
  if l.readPosition ≥ l.input.length then 0 else l.input.getD l.readPosition 0

/-- Go: `func isLetter(ch byte) bool`. -/
def isLetter (ch : Nat) : Bool :=
  (97 ≤ ch && ch ≤ 122) || (65 ≤ ch && ch ≤ 90) || ch == 95

/-- Go: `func isDigit(ch byte) bool`. -/
def isDigit (ch : Nat) : Bool :=
  48 ≤ ch && ch ≤ 57

/-- The loop condition of `skipWhitespace`: space, tab, LF or CR. -/
def isWhitespace (ch : Nat) : Bool :=
  ch == 32 || ch == 9 || ch == 10 || ch == 13

/-- The loop condition of `readIdentifier`. -/
def isIdentChar (ch : Nat) : Bool :=
  isLetter ch || isDigit ch

/-- The loop condition of `skipComment`: neither LF nor the NUL sentinel. -/
def isCommentChar (ch : Nat) : Bool :=
  ch != 10 && ch != 0

/-- Go's conversion `string(ch)` of a byte: the UTF-8 encoding of the code point `ch`
(one byte below 128, two bytes from 128 to 255). -/
def byteToString (ch : Nat) : Bytes :=
  if ch < 128 then [ch] else [192 + ch / 64, 128 + ch % 64]

/-- Go's slice expression `s[a:b]`, which panics unless `a ≤ b ≤ len(s)`. -/
def slice (s : Bytes) (a b : Nat) : Option Bytes :=
  if a ≤ b ∧ b ≤ s.length then some ((s.drop a).take (b - a)) else none

/-- The loop `for cond(l.ch) { l.readChar() }` with a bound on the number of iterations. -/
def readWhile (cond : Nat → Bool) : Nat → Lexer → Option Lexer
  | 0, _ => none
  | fuel + 1, l => if cond l.ch then readWhile cond fuel (readChar l) else some l

/-- Go: `func (l *Lexer) skipWhitespace()`. -/
def skipWhitespace (l : Lexer) : Option Lexer :=
  readWhile isWhitespace (l.input.length + 2) l

/-- Go: `func (l *Lexer) skipComment()`. -/
def skipComment (l : Lexer) : Option Lexer :=
  let l1 := readChar l
  match readWhile isCommentChar (l1.input.length + 2) l1 with
  | none => none
  | some l2 => skipWhitespace l2

/-- Go: `func (l *Lexer) readIdentifier() string`. -/
def readIdentifier (l : Lexer) : Option (Bytes × Lexer) :=
  let position := l.position
  match readWhile isIdentChar (l.input.length + 2) l with
  | none => none
  | some l1 =>
    match slice l1.input position l1.position with
    | none => none
    | some s => some (s, l1)

/-- Go: `func (l *Lexer) readNumber() string`. -/
def readNumber (l : Lexer) : Option (Bytes × Lexer) :=
  let position := l.position
  match readWhile isDigit (l.input.length + 2) l with
  | none => none
  | some l1 =>
    match slice l1.input position l1.position with
    | none => none
    | some s => some (s, l1)

/-- Go: `func (l *Lexer) newToken(tokenType, ch, column) token.Token`. -/
def newToken (l : Lexer) (tokenType : TokenType) (ch : Nat) (column : Nat) : Token :=
  { Typ := tokenType, Literal := byteToString ch, Line := l.line, Column := column }

/-- The two-character branch shared by `:=`, `<>`, `<=` and `>=`:
`ch := l.ch; l.readChar(); literal := string(ch) + string(l.ch)`, the token, and the
`l.readChar()` that ends `NextToken`. -/
def twoCharToken (l : Lexer) (tokenType : TokenType) (startColumn : Nat) : Token × Lexer :=
  let ch := l.ch
  let l1 := readChar l
  let literal := byteToString ch ++ byteToString l1.ch
  ({ Typ := tokenType, Literal := literal, Line := l1.line, Column := startColumn }, readChar l1)

/-- Go: `func (l *Lexer) NextToken() token.Token`, with a bound on the depth of the
recursive re-entry after a comment.  The result is the token and the lexer after the call. -/
def NextTokenFuel : Nat → Lexer → Option (Token × Lexer)
  | 0, _ => none
  | fuel + 1, l0 =>
    match skipWhitespace l0 with
    | none => none
    | some l =>
      let startColumn := l.column
      if l.ch = 61 then some (newToken l EQ l.ch startColumn, readChar l)
      else if l.ch = 59 then some (newToken l SEMICOLON l.ch startColumn, readChar l)
      else if l.ch = 58 then
        if peekChar l = 61 then some (twoCharToken l ASSIGN startColumn)
        else some (newToken l COLON l.ch startColumn, readChar l)
      else if l.ch = 40 then some (newToken l LPAREN l.ch startColumn, readChar l)
      else if l.ch = 41 then some (newToken l RPAREN l.ch startColumn, readChar l)
      else if l.ch = 44 then some (newToken l COMMA l.ch startColumn, readChar l)
      else if l.ch = 43 then some (newToken l PLUS l.ch startColumn, readChar l)
      else if l.ch = 45 then some (newToken l MINUS l.ch startColumn, readChar l)
      else if l.ch = 42 then some (newToken l ASTERISK l.ch startColumn, readChar l)
      else if l.ch = 47 then
        if peekChar l = 47 then
          match skipComment l with
          | none => none
          | some l1 => NextTokenFuel fuel l1
        else some (newToken l SLASH l.ch startColumn, readChar l)
      else if l.ch = 60 then
        if peekChar l = 62 then some (twoCharToken l NOT_EQ startColumn)
        else if peekChar l = 61 then some (twoCharToken l LTE startColumn)
        else some (newToken l LT l.ch startColumn, readChar l)
      else if l.ch = 62 then
        if peekChar l = 61 then some (twoCharToken l GTE startColumn)
        else some (newToken l GT l.ch startColumn, readChar l)
      else if l.ch = 94 then some (newToken l CARET l.ch startColumn, readChar l)
      else if l.ch = 46 then some (newToken l DOT l.ch startColumn, readChar l)
      else if l.ch = 0 then
        some ({ Typ := EOF, Literal := [], Line := l.line, Column := startColumn }, readChar l)
      else if isLetter l.ch then
        match readIdentifier l with
        | none => none
        | some (literal, l1) =>
          some ({ Typ := LookupIdent literal, Literal := literal, Line := l.line,
                  Column := startColumn }, l1)
      else if isDigit l.ch then
        match readNumber l with
        | none => none
        | some (literal, l1) =>
          some ({ Typ := INT, Literal := literal, Line := l.line, Column := startColumn }, l1)
      else some (newToken l ILLEGAL l.ch startColumn, readChar l)

/-- One call of `NextToken`: the comment re-entry is at most `len(input)` deep. -/
def NextToken (l : Lexer) : Option (Token × Lexer) :=
  NextTokenFuel (l.input.length + 1) l

/-- The lexer after `n` successive calls of `NextToken`. -/
def callN : Nat → Lexer → Option Lexer
  | 0, l => some l
  | n + 1, l =>
    match callN n l with
    | none => none
    | some s => (NextToken s).map Prod.snd

/-- The token returned by call number `n` (counting from `0`) on the lexer `l`. -/
def nthToken (l : Lexer) (n : Nat) : Option Token :=
  match callN n l with
  | none => none
  | some s => (NextToken s).map Prod.fst

/-- The lexer state at which the scan of the next token begins: the state after
`NextToken` has skipped whitespace and comments, on which its `switch` produces a token. -/
def scanStartFuel : Nat → Lexer → Option Lexer
  | 0, _ => none
  | fuel + 1, l0 =>
    match skipWhitespace l0 with
    | none => none
    | some l =>
      if l.ch = 47 ∧ peekChar l = 47 then
        match skipComment l with
        | none => none
        | some l1 => scanStartFuel fuel l1
      else some l

/-- The scan start of the call `NextToken l`. -/
def scanStart (l : Lexer) : Option Lexer :=
  scanStartFuel (l.input.length + 1) l

/-! ## Source positions

`lineAt input p` and `columnAt input p` are the 1-based line and column of byte offset `p`. -/

/-- The offset of the last LF strictly before offset `p`, if there is one. -/
def lastLF (input : Bytes) : Nat → Option Nat
  | 0 => none
  | p + 1 => if input.getD p 0 = 10 then some p else lastLF input p

/-- The 1-based line of offset `p`: one more than the number of LF bytes in `input[0..p)`. -/
def lineAt (input : Bytes) (p : Nat) : Nat :=
  1 + (input.take p).count 10

/-- The 1-based column of offset `p`: the distance to the last LF before `p`, and `p + 1`
when no LF precedes `p`. -/
def columnAt (input : Bytes) (p : Nat) : Nat :=
  match lastLF input p with
  | none => p + 1
  | some q => p - q

/-- The lexer state whose current character is the byte at offset `p` of `input` (the NUL
sentinel when `p` is past the end), with `line` and `column` counted by `readChar`. -/
structure At (input : Bytes) (p : Nat) (l : Lexer) : Prop where
  hinput : l.input = input
  hpos : l.position = p
  hread : l.readPosition = p + 1
  hch : l.ch = input.getD p 0
  hline : l.line = lineAt input (p + 1)
  hcol : l.column + 1 = columnAt input (p + 1)

/-- The lexer `l` shifted behind a prefix `pre` of extra input that has already been read. -/
def shift (pre : Bytes) (l : Lexer) : Lexer :=
  { l with input := pre ++ l.input, position := l.position + pre.length,
           readPosition := l.readPosition + pre.length }

/-- The class of the one-character token that `NextToken` emits on byte `c` when `c` does not
start a two-character operator, a comment, a word or a number: the `case` of `c` in the
`switch`, and `ILLEGAL` for the `default` case. -/
def singleType (c : Nat) : TokenType :=
  if c = 61 then EQ
  else if c = 59 then SEMICOLON
  else if c = 58 then COLON
  else if c = 40 then LPAREN
  else if c = 41 then RPAREN
  else if c = 44 then COMMA
  else if c = 43 then PLUS
  else if c = 45 then MINUS
  else if c = 42 then ASTERISK
  else if c = 47 then SLASH
  else if c = 60 then LT
  else if c = 62 then GT
  else if c = 94 then CARET
  else if c = 46 then DOT
  else ILLEGAL

/-- The `switch` of `NextToken` on a scan start, with its cases regrouped by the kind of
token (`NextTokenFuel_one` proves that this is what `NextToken` computes there). -/
def scanToken (s : Lexer) : Option (Token × Lexer) :=
  if s.ch = 0 then
    some ({ Typ := EOF, Literal := [], Line := s.line, Column := s.column }, readChar s)
  else if isLetter s.ch then
    match readIdentifier s with
    | none => none
    | some (literal, l1) =>
      some ({ Typ := LookupIdent literal, Literal := literal, Line := s.line,
              Column := s.column }, l1)
  else if isDigit s.ch then
    match readNumber s with
    | none => none
    | some (literal, l1) =>
      some ({ Typ := INT, Literal := literal, Line := s.line, Column := s.column }, l1)
  else if s.ch = 58 ∧ peekChar s = 61 then some (twoCharToken s ASSIGN s.column)
  else if s.ch = 60 ∧ peekChar s = 62 then some (twoCharToken s NOT_EQ s.column)
  else if s.ch = 60 ∧ peekChar s = 61 then some (twoCharToken s LTE s.column)
  else if s.ch = 62 ∧ peekChar s = 61 then some (twoCharToken s GTE s.column)
  else some (newToken s (singleType s.ch) s.ch s.column, readChar s)

/-- The four two-character operators: first byte, second byte and class. -/
def twoCharOps : List (Nat × Nat × TokenType) :=
  [(58, 61, ASSIGN), (60, 62, NOT_EQ), (60, 61, LTE), (62, 61, GTE)]

/-- The byte offset at which the scan of token number `n` begins: the `position` of the
scan start of call number `n`. -/
def nthStart (l : Lexer) (n : Nat) : Option Nat :=
  match callN n l with
  | none => none
  | some s => (scanStart s).map Lexer.position

/-- The token and the shifted lexer. -/
def shiftResult (pre : Bytes) (r : Token × Lexer) : Token × Lexer :=
  (r.1, shift pre r.2)

/-- The word and the shifted lexer. -/
def shiftRun (pre : Bytes) (r : Bytes × Lexer) : Bytes × Lexer :=
  (r.1, shift pre r.2)

/-! ## Package `isa` -/

def OpPushConst : Nat := 0x01
def OpPop : Nat := 0x02
def OpAdd : Nat := 0x10
def OpSub : Nat := 0x11
def OpMul : Nat := 0x12
def OpDiv : Nat := 0x13
def OpCmpEq : Nat := 0x14
def OpCmpNeq : Nat := 0x15
def OpCmpLt : Nat := 0x16
def OpCmpGt : Nat := 0x17
def OpCmpLe : Nat := 0x18
def OpCmpGe : Nat := 0x19
def OpLoadGlobal : Nat := 0x20
def OpStoreGlobal : Nat := 0x21
def OpLoadLocal : Nat := 0x22
def OpStoreLocal : Nat := 0x23
def OpJump : Nat := 0x30
def OpJumpIfFalse : Nat := 0x31
def OpCall : Nat := 0x40
def OpRet : Nat := 0x41
def OpNew : Nat := 0x50
def OpLoadIndirect : Nat := 0x51
def OpStoreIndirect : Nat := 0x52
def OpHalt : Nat := 0xFF

/-- Go: `var MnemonicToOpcode = map[string]byte{...}` (the keys are pairwise distinct). -/
def MnemonicToOpcode : List (String × Nat) :=
  [ ("PUSH_CONST", OpPushConst),
    ("POP", OpPop),
    ("ADD", OpAdd),
    ("SUB", OpSub),
    ("MUL", OpMul),
    ("DIV", OpDiv),
    ("CMP_EQ", OpCmpEq),
    ("CMP_NEQ", OpCmpNeq),
    ("CMP_LT", OpCmpLt),
    ("CMP_GT", OpCmpGt),
    ("CMP_LE", OpCmpLe),
    ("CMP_GE", OpCmpGe),
    ("LOAD_GLOBAL", OpLoadGlobal),
    ("STORE_GLOBAL", OpStoreGlobal),
    ("LOAD_LOCAL", OpLoadLocal),
    ("STORE_LOCAL", OpStoreLocal),
    ("JUMP", OpJump),
    ("JUMP_IF_FALSE", OpJumpIfFalse),
    ("CALL", OpCall),
    ("RET", OpRet),
    ("NEW", OpNew),
    ("LOAD_INDIRECT", OpLoadIndirect),
    ("STORE_INDIRECT", OpStoreIndirect),
    ("HALT", OpHalt) ]

/-- Go: the body of `func init()`,
`for mnemonic, opcode := range MnemonicToOpcode { OpcodeToMnemonic[opcode] = mnemonic }`,
on the empty map made by `make(map[byte]string)`.  Go leaves the order of a `range` over a
map unspecified: `order` is the order in which the entries are visited.  The map is the
function from a key to its value, `none` for an absent key. -/
def initOpcodeToMnemonic (order : List (String × Nat)) : Nat → Option String :=
  order.foldl (fun m e => fun b => if b = e.2 then some e.1 else m b) (fun _ => none)

/-- Go: `var OpcodeToMnemonic`, after `init` (with the entries visited in source order;
`init_order_irrelevant` shows that the order does not matter). -/
def OpcodeToMnemonic : Nat → Option String :=
  initOpcodeToMnemonic MnemonicToOpcode

/-- Go's conversion `uint32(n)` of an `int32`: the value modulo `2^32`. -/
def toUint32 (n : Int) : Nat :=
  (n % 4294967296).toNat

/-- Go's conversion `int32(v)` of a `uint32`: the two's-complement reading of `v`. -/
def toInt32 (v : Nat) : Int :=
  if v % 4294967296 < 2147483648 then ((v % 4294967296 : Nat) : Int)
  else ((v % 4294967296 : Nat) : Int) - 4294967296

/-- Go: `func IntToBytes(n int32) []byte`; `binary.LittleEndian.PutUint32(b, v)` stores
`byte(v)`, `byte(v >> 8)`, `byte(v >> 16)`, `byte(v >> 24)`. -/
def IntToBytes (n : Int) : Bytes :=
  let v := toUint32 n
  [v % 256, v / 256 % 256, v / 65536 % 256, v / 16777216 % 256]

/-- Go: `func BytesToInt(b []byte) int32`; `binary.LittleEndian.Uint32(b)` panics on a slice
of fewer than 4 bytes and otherwise returns `b[0] | b[1]<<8 | b[2]<<16 | b[3]<<24`, which for
bytes is the sum `b[0] + 2^8 b[1] + 2^16 b[2] + 2^24 b[3]`. -/
def BytesToInt (b : Bytes) : Option Int :=
  match b with
  | b0 :: b1 :: b2 :: b3 :: _ => some (toInt32 (b0 + 256 * b1 + 65536 * b2 + 16777216 * b3))
  | _ => none

/-! ## The disassembler -/

/-- The two errors that the loop of `Disassemble` returns: `unknown opcode` with the address
and the opcode, and `unexpected end of file` with the address after the opcode and the
mnemonic. -/
inductive DisasmError where
  | unknownOpcode (pc : Nat) (opcode : Nat)
  | unexpectedEnd (pc : Nat) (mnemonic : String)
deriving DecidableEq, Repr

/-- What the loop of `Disassemble` prints: `instr pc mnemonic` for
`fmt.Printf("%04d: %s", pc, mnemonic)`, and `args values` for the rest of the line, the
decoded arguments and the newline. -/
inductive Printed where
  | instr (pc : Nat) (mnemonic : String)
  | args (values : List Int)
deriving DecidableEq, Repr

/-- The state in which the loop of `Disassemble` returns: what it has printed, the program
counter, and the error (`none` for `return nil`). -/
structure DisasmResult where
  out : List Printed
  pc : Nat
  err : Option DisasmError
deriving DecidableEq, Repr

/-- The opcodes of the first `case` of the `switch`: one 4-byte argument. -/
def oneArgOpcodes : List Nat :=
  [OpPushConst, OpLoadGlobal, OpStoreGlobal, OpLoadLocal, OpStoreLocal, OpJump, OpJumpIfFalse,
    OpNew]

/-- Go: the loop `for pc < len(bytecode) { ... }` of `Disassemble`, with a bound on the
number of iterations. -/
def disassembleLoop (bytecode : Bytes) : Nat → Nat → List Printed → Option DisasmResult
  | 0, _, _ => none
  | fuel + 1, pc, out =>
    if pc < bytecode.length then
      let opcode := bytecode.getD pc 0
      match OpcodeToMnemonic opcode with
      | none => some ⟨out, pc, some (.unknownOpcode pc opcode)⟩
      | some mnemonic =>
        let out1 := out ++ [.instr pc mnemonic]
        let pc1 := pc + 1
        if opcode ∈ oneArgOpcodes then
          if pc1 + 4 > bytecode.length then some ⟨out1, pc1, some (.unexpectedEnd pc1 mnemonic)⟩
          else
            match (slice bytecode pc1 (pc1 + 4)).bind BytesToInt with
            | none => none
            | some arg => disassembleLoop bytecode fuel (pc1 + 4) (out1 ++ [.args [arg]])
        else if opcode = OpCall then
          if pc1 + 8 > bytecode.length then some ⟨out1, pc1, some (.unexpectedEnd pc1 mnemonic)⟩
          else
            match (slice bytecode pc1 (pc1 + 4)).bind BytesToInt with
            | none => none
            | some addr =>
              match (slice bytecode (pc1 + 4) (pc1 + 4 + 4)).bind BytesToInt with
              | none => none
              | some numArgs =>
                disassembleLoop bytecode fuel (pc1 + 4 + 4) (out1 ++ [.args [addr, numArgs]])
        else disassembleLoop bytecode fuel pc1 (out1 ++ [.args []])
    else some ⟨out, pc, none⟩

/-- Go: `func Disassemble`, from `pc := 0` on the bytes read from the input file (the two
header lines printed before the loop are left out); each iteration advances `pc`, so
`len(bytecode) + 1` iterations are enough. -/
def Disassemble (bytecode : Bytes) : Option DisasmResult :=
  disassembleLoop bytecode (bytecode.length + 1) 0 []

/-- The little-endian reading of the four bytes at address `a` as an `int32`. -/
def leInt32 (buf : Bytes) (a : Nat) : Int :=
  toInt32 (buf.getD a 0 + 256 * buf.getD (a + 1) 0 + 65536 * buf.getD (a + 2) 0 +
    16777216 * buf.getD (a + 3) 0)

/-- The stride of an instruction as the specification gives it: 5 for the opcodes with one
4-byte argument, 9 for `CALL`, 1 for every other opcode. -/
def specStride (opcode : Nat) : Nat :=
  if opcode ∈ [OpPushConst, OpLoadGlobal, OpStoreGlobal, OpLoadLocal, OpStoreLocal, OpJump,
      OpJumpIfFalse, OpNew] then 5
  else if opcode = OpCall then 9
  else 1

/-- The decoded arguments of the instruction at address `a` as the specification gives
them: the little-endian arguments that follow the opcode. -/
def specArgs (buf : Bytes) (a : Nat) : List Int :=
  if specStride (buf.getD a 0) = 5 then [leInt32 buf (a + 1)]
  else if specStride (buf.getD a 0) = 9 then [leInt32 buf (a + 1), leInt32 buf (a + 5)]
  else []

/-- The linear decoding of the specification from address `pc`: the complete instructions
(address, mnemonic, arguments) met with the strides of `specStride`, and the address at which
the decoding stops: the end of the buffer, an opcode that is not in the table, or an
instruction that extends past the end of the buffer. -/
def specWalk (buf : Bytes) : Nat → Nat → List (Nat × String × List Int) × Nat
  | 0, pc => ([], pc)
  | fuel + 1, pc =>
    if pc < buf.length then
      match OpcodeToMnemonic (buf.getD pc 0) with
      | none => ([], pc)
      | some mnemonic =>
        if pc + specStride (buf.getD pc 0) ≤ buf.length then
          ((pc, mnemonic, specArgs buf pc) ::
              (specWalk buf fuel (pc + specStride (buf.getD pc 0))).1,
            (specWalk buf fuel (pc + specStride (buf.getD pc 0))).2)
        else ([], pc)
    else ([], pc)

/-- The lines that the loop prints for a list of instructions. -/
def printedLines (instrs : List (Nat × String × List Int)) : List Printed :=
  instrs.flatMap fun i => [.instr i.1 i.2.1, .args i.2.2]

/-! ## Basic facts about `readChar` and `peekChar` -/

theorem peekChar_eq (l : Lexer) : peekChar l = l.input.getD l.readPosition 0 := by
  unfold peekChar
  split_ifs with h
  · exact (List.getD_eq_default _ _ h).symm
  · rfl

@[simp] theorem readChar_input (l : Lexer) : (readChar l).input = l.input := by
  unfold readChar; dsimp only; split_ifs <;> simp_all

@[simp] theorem readChar_position (l : Lexer) : (readChar l).position = l.readPosition := by
  unfold readChar; dsimp only; split_ifs <;> simp_all

@[simp] theorem readChar_readPosition (l : Lexer) :
    (readChar l).readPosition = l.readPosition + 1 := by
  unfold readChar; dsimp only; split_ifs <;> simp_all

@[simp] theorem readChar_ch (l : Lexer) : (readChar l).ch = peekChar l := by
  unfold readChar peekChar; dsimp only; split_ifs <;> simp_all

theorem readChar_line (l : Lexer) :
    (readChar l).line = if peekChar l = 10 then l.line + 1 else l.line := by
  unfold readChar peekChar; dsimp only; split_ifs <;> simp_all

theorem readChar_column (l : Lexer) :
    (readChar l).column = if peekChar l = 10 then 0 else l.column + 1 := by
  unfold readChar peekChar; dsimp only; split_ifs <;> simp_all

/-! ## The loops -/

theorem readWhile_input {c : Nat → Bool} : ∀ (f : Nat) (l r : Lexer),
    readWhile c f l = some r → r.input = l.input := by
  intro f
  induction f with
  | zero => intro l r h; simp [readWhile] at h
  | succ f ih =>
    intro l r h
    unfold readWhile at h
    split_ifs at h with hc
    · simpa using ih _ _ h
    · simp at h; rw [← h]

theorem readWhile_stop {c : Nat → Bool} : ∀ (f : Nat) (l r : Lexer),
    readWhile c f l = some r → c r.ch = false := by
  intro f
  induction f with
  | zero => intro l r h; simp [readWhile] at h
  | succ f ih =>
    intro l r h
    unfold readWhile at h
    split_ifs at h with hc
    · exact ih _ _ h
    · simp at h; rw [← h]; simpa using hc

theorem readWhile_of_not {c : Nat → Bool} (f : Nat) (l : Lexer) (h : c l.ch = false) :
    readWhile c (f + 1) l = some l := by
  simp [readWhile, h]

theorem readWhile_mono {c : Nat → Bool} : ∀ (f g : Nat) (l r : Lexer),
    readWhile c f l = some r → f ≤ g → readWhile c g l = some r := by
  intro f
  induction f with
  | zero => intro g l r h; simp [readWhile] at h
  | succ f ih =>
    intro g l r h hg
    obtain ⟨g, rfl⟩ : ∃ k, g = k + 1 := ⟨g - 1, by omega⟩
    unfold readWhile at h ⊢
    split_ifs at h ⊢ with hc
    · exact ih _ _ _ h (by omega)
    · exact h

/-- A loop whose condition fails on the NUL sentinel stops at the end of the input at the
latest. -/
theorem readWhile_total {c : Nat → Bool} (h0 : c 0 = false) : ∀ (f : Nat) (l : Lexer),
    2 ≤ f → l.input.length + 2 ≤ f + l.readPosition → ∃ r, readWhile c f l = some r := by
  intro f
  induction f with
  | zero => intro l h2; omega
  | succ f ih =>
    intro l h2 h
    unfold readWhile
    split_ifs with hc
    · by_cases hlen : l.readPosition ≥ l.input.length
      · have hch : (readChar l).ch = 0 := by
          rw [readChar_ch, peekChar_eq]; exact List.getD_eq_default _ _ hlen
        obtain ⟨k, rfl⟩ : ∃ k, f = k + 1 := ⟨f - 1, by omega⟩
        exact ⟨_, readWhile_of_not k _ (by rw [hch]; exact h0)⟩
      · exact ih _ (by omega) (by simp; omega)
    · exact ⟨l, rfl⟩

/-- The result of a loop does not depend on the fuel. -/
theorem readWhile_fuel {c : Nat → Bool} (f g : Nat) (l r s : Lexer)
    (h1 : readWhile c f l = some r) (h2 : readWhile c g l = some s) : r = s := by
  rcases Nat.le_total f g with h | h
  · have := readWhile_mono f g l r h1 h
    rw [h2] at this; exact (Option.some.inj this).symm
  · have := readWhile_mono g f l s h2 h
    rw [h1] at this; exact Option.some.inj this

theorem isWhitespace_zero : isWhitespace 0 = false := by decide
theorem isIdentChar_zero : isIdentChar 0 = false := by decide
theorem isDigit_zero : isDigit 0 = false := by decide
theorem isCommentChar_zero : isCommentChar 0 = false := by decide

theorem skipWhitespace_total (l : Lexer) : ∃ r, skipWhitespace l = some r :=
  readWhile_total isWhitespace_zero _ l (by omega) (by omega)

theorem skipWhitespace_of_not (l : Lexer) (h : isWhitespace l.ch = false) :
    skipWhitespace l = some l :=
  readWhile_of_not _ l h

theorem skipWhitespace_stop (l r : Lexer) (h : skipWhitespace l = some r) :
    isWhitespace r.ch = false :=
  readWhile_stop _ l r h

theorem skipWhitespace_input (l r : Lexer) (h : skipWhitespace l = some r) :
    r.input = l.input :=
  readWhile_input _ l r h

theorem skipWhitespace_idem (l r : Lexer) (h : skipWhitespace l = some r) :
    skipWhitespace r = some r :=
  skipWhitespace_of_not r (skipWhitespace_stop l r h)

theorem skipComment_total (l : Lexer) : ∃ r, skipComment l = some r := by
  unfold skipComment
  obtain ⟨r, hr⟩ := readWhile_total isCommentChar_zero ((readChar l).input.length + 2)
    (readChar l) (by omega) (by omega)
  simp only [hr]
  exact skipWhitespace_total r

theorem skipComment_stop (l r : Lexer) (h : skipComment l = some r) :
    isWhitespace r.ch = false := by
  simp only [skipComment] at h
  split at h
  · simp at h
  · exact skipWhitespace_stop _ _ h

theorem skipComment_input (l r : Lexer) (h : skipComment l = some r) :
    r.input = l.input := by
  simp only [skipComment] at h
  split at h
  · simp at h
  · next l2 h2 =>
    rw [skipWhitespace_input _ _ h, readWhile_input _ _ _ h2, readChar_input]

/-! ## Lines, columns and the states reached by `readChar` -/

theorem lineAt_succ (input : Bytes) (p : Nat) :
    lineAt input (p + 1) = lineAt input p + (if input.getD p 0 = 10 then 1 else 0) := by
  unfold lineAt
  rw [List.take_succ, List.count_append, List.getD_eq_getElem?_getD]
  cases h : input[p]? with
  | none => simp
  | some a =>
    by_cases ha : a = 10
    · simp [ha]; omega
    · have : List.count 10 [a] = 0 := List.count_eq_zero.mpr (by simpa using Ne.symm ha)
      simp [ha, this]

theorem lastLF_some (input : Bytes) : ∀ (p q : Nat), lastLF input p = some q →
    q < p ∧ input.getD q 0 = 10 ∧ ∀ r, q < r → r < p → input.getD r 0 ≠ 10 := by
  intro p
  induction p with
  | zero => intro q h; simp [lastLF] at h
  | succ p ih =>
    intro q h
    unfold lastLF at h
    split_ifs at h with hc
    · simp at h; subst h
      exact ⟨by omega, hc, fun r h1 h2 => by omega⟩
    · obtain ⟨h1, h2, h3⟩ := ih q h
      refine ⟨by omega, h2, fun r hr1 hr2 => ?_⟩
      by_cases hrp : r = p
      · subst hrp; exact hc
      · exact h3 r hr1 (by omega)

theorem lastLF_none (input : Bytes) : ∀ (p : Nat), lastLF input p = none →
    ∀ r, r < p → input.getD r 0 ≠ 10 := by
  intro p
  induction p with
  | zero => intro _ r hr; omega
  | succ p ih =>
    intro h r hr
    unfold lastLF at h
    split_ifs at h with hc
    by_cases hrp : r = p
    · subst hrp; exact hc
    · exact ih h r (by omega)

/-- The last LF before `p` is determined by its characteristic property. -/
theorem lastLF_eq_some (input : Bytes) (p q : Nat) (hq : q < p) (h10 : input.getD q 0 = 10)
    (hno : ∀ r, q < r → r < p → input.getD r 0 ≠ 10) : lastLF input p = some q := by
  cases h : lastLF input p with
  | none => exact absurd h10 (lastLF_none input p h q hq)
  | some q1 =>
    obtain ⟨h1, h2, h3⟩ := lastLF_some input p q1 h
    rcases Nat.lt_trichotomy q q1 with hlt | heq | hgt
    · exact absurd h2 (hno q1 hlt h1)
    · rw [heq]
    · exact absurd h10 (h3 q hgt hq)

theorem lastLF_eq_none (input : Bytes) (p : Nat) (hno : ∀ r, r < p → input.getD r 0 ≠ 10) :
    lastLF input p = none := by
  cases h : lastLF input p with
  | none => rfl
  | some q1 =>
    obtain ⟨h1, h2, _⟩ := lastLF_some input p q1 h
    exact absurd h2 (hno q1 h1)

theorem columnAt_succ (input : Bytes) (p : Nat) :
    columnAt input (p + 1) = if input.getD p 0 = 10 then 1 else columnAt input p + 1 := by
  unfold columnAt
  rw [lastLF]
  split_ifs with hc
  · simp
  · cases h : lastLF input p with
    | none => rfl
    | some q =>
      have := (lastLF_some input p q h).1
      simp only; omega

theorem At_New (input : Bytes) : At input 0 (New input) := by
  refine ⟨?_, ?_, ?_, ?_, ?_, ?_⟩
  · simp [New]
  · simp [New]
  · simp [New]
  · simp [New, peekChar_eq]
  · rw [lineAt_succ]; simp [New, readChar_line, peekChar_eq, lineAt]
    split_ifs <;> rfl
  · rw [columnAt_succ]
    simp only [New, readChar_column, peekChar_eq]
    split_ifs <;> simp [columnAt, lastLF]

theorem At.readChar {input : Bytes} {p : Nat} {l : Lexer} (h : At input p l) :
    At input (p + 1) (readChar l) := by
  have hpk : peekChar l = input.getD (p + 1) 0 := by rw [peekChar_eq, h.hinput, h.hread]
  refine ⟨?_, ?_, ?_, ?_, ?_, ?_⟩
  · simp [h.hinput]
  · simp [h.hread]
  · simp [h.hread]
  · simp [hpk]
  · rw [lineAt_succ input (p + 1), readChar_line, hpk, h.hline]
    split_ifs <;> simp
  · rw [columnAt_succ input (p + 1), readChar_column, hpk]
    split_ifs
    · rfl
    · rw [h.hcol]

theorem At.peek {input : Bytes} {p : Nat} {l : Lexer} (h : At input p l) :
    peekChar l = input.getD (p + 1) 0 := by
  rw [peekChar_eq, h.hinput, h.hread]

/-- The lexer state at an offset is unique. -/
theorem At.unique {input : Bytes} {p : Nat} {l r : Lexer} (h : At input p l)
    (k : At input p r) : l = r := by
  obtain ⟨a1, a2, a3, a4, a5, a6⟩ := h
  obtain ⟨b1, b2, b3, b4, b5, b6⟩ := k
  cases l; cases r
  simp only [Lexer.mk.injEq] at *
  refine ⟨by rw [a1, b1], by rw [a2, b2], by rw [a3, b3], by rw [a4, b4], by rw [a5, b5], ?_⟩
  omega

/-- At an offset whose byte is not LF, `line` and `column` are the line and column of that
offset. -/
theorem At.line_column {input : Bytes} {p : Nat} {l : Lexer} (h : At input p l)
    (hne : l.ch ≠ 10) : l.line = lineAt input p ∧ l.column = columnAt input p := by
  have hne1 : ¬ input.getD p 0 = 10 := by rw [← h.hch]; exact hne
  have h1 := h.hline
  have h2 := h.hcol
  rw [lineAt_succ, if_neg hne1] at h1
  rw [columnAt_succ, if_neg hne1] at h2
  exact ⟨by omega, by omega⟩

theorem At.ch_zero_of_le {input : Bytes} {p : Nat} {l : Lexer} (h : At input p l)
    (hp : input.length ≤ p) : l.ch = 0 := by
  rw [h.hch]; exact List.getD_eq_default _ _ hp

theorem At.lt_of_ch_ne_zero {input : Bytes} {p : Nat} {l : Lexer} (h : At input p l)
    (hc : l.ch ≠ 0) : p < input.length := by
  by_contra hp
  exact hc (h.ch_zero_of_le (by omega))

/-- A loop started at offset `p` stops at the first offset `q ≥ p` whose byte fails the
condition, having passed only bytes that satisfy it. -/
theorem readWhile_at {c : Nat → Bool} (h0 : c 0 = false) (input : Bytes) :
    ∀ (f p : Nat) (l r : Lexer), At input p l → readWhile c f l = some r →
      ∃ q, p ≤ q ∧ At input q r ∧ c (input.getD q 0) = false ∧
        (∀ i, p ≤ i → i < q → c (input.getD i 0) = true) ∧
        (p ≤ input.length → q ≤ input.length) := by
  intro f
  induction f with
  | zero => intro p l r _ h; simp [readWhile] at h
  | succ f ih =>
    intro p l r hl h
    unfold readWhile at h
    split_ifs at h with hc
    · obtain ⟨q, hq1, hq2, hq3, hq4, hq5⟩ := ih (p + 1) _ r hl.readChar h
      have hp : p < input.length := by
        apply hl.lt_of_ch_ne_zero
        intro hz; rw [hz, h0] at hc; exact Bool.noConfusion hc
      refine ⟨q, by omega, hq2, hq3, fun i hi1 hi2 => ?_, fun _ => hq5 (by omega)⟩
      by_cases hip : i = p
      · subst hip; rw [← hl.hch]; exact hc
      · exact hq4 i (by omega) hi2
    · simp at h; subst h
      refine ⟨p, le_refl _, hl, ?_, fun i hi1 hi2 => by omega, fun hp => hp⟩
      rw [← hl.hch]; simpa using hc

/-! ## Whitespace and comment skipping, and the scan start -/

theorem readWhile_readPosition {c : Nat → Bool} : ∀ (f : Nat) (l r : Lexer),
    readWhile c f l = some r → l.readPosition ≤ r.readPosition := by
  intro f
  induction f with
  | zero => intro l r h; simp [readWhile] at h
  | succ f ih =>
    intro l r h
    unfold readWhile at h
    split_ifs at h with hc
    · have := ih _ _ h
      simp at this; omega
    · simp at h; rw [← h]

theorem skipComment_readPosition (l r : Lexer) (h : skipComment l = some r) :
    l.readPosition + 1 ≤ r.readPosition := by
  simp only [skipComment] at h
  split at h
  · simp at h
  · next l2 h2 =>
    have h3 := readWhile_readPosition _ _ _ h2
    have h4 := readWhile_readPosition _ _ _ h
    simp at h3; omega

theorem skipComment_at {input : Bytes} {p : Nat} {l r : Lexer} (hl : At input p l)
    (hpk : peekChar l ≠ 0) (h : skipComment l = some r) :
    ∃ q, p + 1 ≤ q ∧ At input q r ∧ q ≤ input.length := by
  simp only [skipComment] at h
  split at h
  · simp at h
  · next l2 h2 =>
    have hp1 : p + 1 < input.length := by
      have := hl.readChar.lt_of_ch_ne_zero (by rw [readChar_ch]; exact hpk)
      exact this
    obtain ⟨q1, a1, a2, _, _, a5⟩ := readWhile_at isCommentChar_zero input _ _ _ _ hl.readChar h2
    obtain ⟨q2, b1, b2, _, _, b5⟩ := readWhile_at isWhitespace_zero input _ _ _ _ a2 h
    exact ⟨q2, by omega, b2, b5 (a5 (by omega))⟩

/-- On a state that is neither whitespace nor the start of a comment, `NextToken` does not
re-enter itself: any fuel gives the result of fuel `1`. -/
theorem NextTokenFuel_start (f : Nat) (s : Lexer) (hws : isWhitespace s.ch = false)
    (hcm : ¬ (s.ch = 47 ∧ peekChar s = 47)) :
    NextTokenFuel (f + 1) s = NextTokenFuel (0 + 1) s := by
  have e := skipWhitespace_of_not s hws
  rw [NextTokenFuel, NextTokenFuel, e]
  dsimp only
  by_cases h47 : s.ch = 47
  · have hpk : ¬ peekChar s = 47 := fun h => hcm ⟨h47, h⟩
    simp only [h47, hpk, if_false]
  · simp only [h47, if_false]

/-- On a scan start the `switch` of `NextToken` computes `scanToken`. -/
theorem NextTokenFuel_one (s : Lexer) (hws : isWhitespace s.ch = false)
    (hcm : ¬ (s.ch = 47 ∧ peekChar s = 47)) :
    NextTokenFuel (0 + 1) s = scanToken s := by
  have e := skipWhitespace_of_not s hws
  rw [NextTokenFuel, e]
  dsimp only
  unfold scanToken singleType
  by_cases h1 : s.ch = 61
  · simp [h1, isLetter, isDigit]
  by_cases h2 : s.ch = 59
  · simp [h2, isLetter, isDigit]
  by_cases h3 : s.ch = 58
  · simp [h3, isLetter, isDigit]
  by_cases h4 : s.ch = 40
  · simp [h4, isLetter, isDigit]
  by_cases h5 : s.ch = 41
  · simp [h5, isLetter, isDigit]
  by_cases h6 : s.ch = 44
  · simp [h6, isLetter, isDigit]
  by_cases h7 : s.ch = 43
  · simp [h7, isLetter, isDigit]
  by_cases h8 : s.ch = 45
  · simp [h8, isLetter, isDigit]
  by_cases h9 : s.ch = 42
  · simp [h9, isLetter, isDigit]
  by_cases h10 : s.ch = 47
  · have hpk : ¬ peekChar s = 47 := fun h => hcm ⟨h10, h⟩
    simp [h10, hpk, isLetter, isDigit]
  by_cases h11 : s.ch = 60
  · simp [h11, isLetter, isDigit]
  by_cases h12 : s.ch = 62
  · simp [h12, isLetter, isDigit]
  by_cases h13 : s.ch = 94
  · simp [h13, isLetter, isDigit]
  by_cases h14 : s.ch = 46
  · simp [h14, isLetter, isDigit]
  by_cases h15 : s.ch = 0
  · simp [h15]
  simp only [h1, h2, h3, h4, h5, h6, h7, h8, h9, h10, h11, h12, h13, h14, h15, if_false,
    false_and]

theorem NextTokenFuel_skip (f : Nat) (l s : Lexer) (hs : skipWhitespace l = some s) :
    NextTokenFuel (f + 1) l = NextTokenFuel (f + 1) s := by
  simp only [NextTokenFuel, hs, skipWhitespace_idem l s hs]

/-- The token of a call is the token that the `switch` of `NextToken` produces on the scan
start of the call. -/
theorem NextTokenFuel_eq_bind : ∀ (f : Nat) (l : Lexer),
    NextTokenFuel f l = (scanStartFuel f l).bind (NextTokenFuel (0 + 1)) := by
  intro f
  induction f with
  | zero => intro l; simp [NextTokenFuel, scanStartFuel]
  | succ f ih =>
    intro l
    cases hs : skipWhitespace l with
    | none => simp [NextTokenFuel, scanStartFuel, hs]
    | some s =>
      rw [NextTokenFuel_skip f l s hs]
      have hws := skipWhitespace_stop l s hs
      by_cases hcm : s.ch = 47 ∧ peekChar s = 47
      · have e1 : NextTokenFuel (f + 1) s = (skipComment s).bind (NextTokenFuel f) := by
          simp only [NextTokenFuel, skipWhitespace_of_not s hws, hcm.1, hcm.2]
          cases skipComment s <;> simp
        have e2 : scanStartFuel (f + 1) l = (skipComment s).bind (scanStartFuel f) := by
          simp only [scanStartFuel, hs, hcm]
          cases skipComment s <;> simp
        rw [e1, e2]
        cases skipComment s with
        | none => rfl
        | some l1 => simpa using ih l1
      · have e2 : scanStartFuel (f + 1) l = some s := by
          simp only [scanStartFuel, hs, hcm]; simp
        rw [e2, NextTokenFuel_start f s hws hcm]; rfl

theorem scanStartFuel_stop : ∀ (f : Nat) (l s : Lexer), scanStartFuel f l = some s →
    isWhitespace s.ch = false ∧ ¬ (s.ch = 47 ∧ peekChar s = 47) := by
  intro f
  induction f with
  | zero => intro l s h; simp [scanStartFuel] at h
  | succ f ih =>
    intro l s h
    simp only [scanStartFuel] at h
    split at h
    · simp at h
    · next s1 hs1 =>
      split_ifs at h with hcm
      · split at h
        · simp at h
        · exact ih _ _ h
      · simp at h; subst h
        exact ⟨skipWhitespace_stop l _ hs1, hcm⟩

theorem scanStartFuel_at {input : Bytes} : ∀ (f p : Nat) (l s : Lexer), At input p l →
    scanStartFuel f l = some s →
    ∃ q, p ≤ q ∧ At input q s ∧ (p ≤ input.length → q ≤ input.length) := by
  intro f
  induction f with
  | zero => intro p l s _ h; simp [scanStartFuel] at h
  | succ f ih =>
    intro p l s hl h
    simp only [scanStartFuel] at h
    split at h
    · simp at h
    · next s1 hs1 =>
      obtain ⟨q1, a1, a2, _, _, a5⟩ := readWhile_at isWhitespace_zero input _ _ _ _ hl hs1
      split_ifs at h with hcm
      · split at h
        · simp at h
        · next l1 hl1 =>
          obtain ⟨q2, b1, b2, b3⟩ := skipComment_at a2 (by rw [hcm.2]; decide) hl1
          obtain ⟨q3, c1, c2, c3⟩ := ih q2 l1 s b2 h
          exact ⟨q3, by omega, c2, fun _ => c3 b3⟩
      · simp at h; subst h
        exact ⟨q1, a1, a2, a5⟩

theorem scanStartFuel_total : ∀ (f : Nat) (l : Lexer), 1 ≤ f →
    l.input.length + 1 ≤ f + l.readPosition → ∃ s, scanStartFuel f l = some s := by
  intro f
  induction f with
  | zero => intro l h; omega
  | succ f ih =>
    intro l _ h
    obtain ⟨s1, hs1⟩ := skipWhitespace_total l
    simp only [scanStartFuel, hs1]
    split_ifs with hcm
    · obtain ⟨l1, hl1⟩ := skipComment_total s1
      simp only [hl1]
      have e1 := readWhile_readPosition _ _ _ hs1
      have e2 := skipComment_readPosition _ _ hl1
      have e3 : s1.readPosition < s1.input.length := by
        by_contra hge
        have : peekChar s1 = 0 := by
          rw [peekChar_eq]; exact List.getD_eq_default _ _ (by omega)
        rw [this] at hcm; exact absurd hcm.2 (by decide)
      have e4 := skipWhitespace_input _ _ hs1
      have e5 := skipComment_input _ _ hl1
      rw [e4] at e3
      exact ih l1 (by omega) (by rw [e5, e4]; omega)
    · exact ⟨s1, rfl⟩

theorem scanStartFuel_mono : ∀ (f g : Nat) (l s : Lexer), scanStartFuel f l = some s →
    f ≤ g → scanStartFuel g l = some s := by
  intro f
  induction f with
  | zero => intro g l s h; simp [scanStartFuel] at h
  | succ f ih =>
    intro g l s h hg
    obtain ⟨g, rfl⟩ : ∃ k, g = k + 1 := ⟨g - 1, by omega⟩
    simp only [scanStartFuel] at h ⊢
    split at h
    · simp at h
    · next s1 hs1 =>
      split_ifs at h ⊢ with hcm
      · split at h
        · simp at h
        · next l1 hl1 => exact ih g l1 s h (by omega)
      · exact h

theorem NextTokenFuel_mono (f g : Nat) (l : Lexer) (r : Token × Lexer)
    (h : NextTokenFuel f l = some r) (hg : f ≤ g) : NextTokenFuel g l = some r := by
  rw [NextTokenFuel_eq_bind] at h ⊢
  cases hs : scanStartFuel f l with
  | none => rw [hs] at h; simp at h
  | some s => rw [hs] at h; rw [scanStartFuel_mono f g l s hs hg]; exact h

/-- The token of `NextToken l` is produced by the `switch` on the scan start of `l`. -/
theorem NextToken_eq_bind (l : Lexer) :
    NextToken l = (scanStart l).bind (NextTokenFuel (0 + 1)) :=
  NextTokenFuel_eq_bind _ l

theorem scanStart_total (l : Lexer) : ∃ s, scanStart l = some s :=
  scanStartFuel_total _ l (by omega) (by omega)

/-! ## Words and numbers -/

theorem takeWhile_eq_take (c : Nat → Bool) : ∀ (xs : List Nat) (n : Nat), n ≤ xs.length →
    (∀ i, i < n → c (xs.getD i 0) = true) → c (xs.getD n 0) = false →
    xs.takeWhile c = xs.take n := by
  intro xs
  induction xs with
  | nil => intro n hn _ _; simp
  | cons x xs ih =>
    intro n hn hall hstop
    cases n with
    | zero =>
      have : c x = false := by simpa using hstop
      simp [List.takeWhile, this]
    | succ m =>
      have hx : c x = true := by simpa using hall 0 (by omega)
      have := ih m (by simpa using hn) (fun i hi => by simpa using hall (i + 1) (by omega))
        (by simpa using hstop)
      simp [List.takeWhile, hx, this]

theorem getD_drop (xs : List Nat) (p i : Nat) : (xs.drop p).getD i 0 = xs.getD (p + i) 0 := by
  simp [List.getD_eq_getElem?_getD, List.getElem?_drop]

/-- The run of bytes satisfying `c` that starts at offset `p`. -/
theorem run_eq_slice (c : Nat → Bool) (input : Bytes) (p q : Nat) (hpq : p ≤ q)
    (hq : q ≤ input.length) (hall : ∀ i, p ≤ i → i < q → c (input.getD i 0) = true)
    (hstop : c (input.getD q 0) = false) :
    slice input p q = some ((input.drop p).takeWhile c) ∧
      q = p + ((input.drop p).takeWhile c).length := by
  have e : (input.drop p).takeWhile c = (input.drop p).take (q - p) := by
    apply takeWhile_eq_take
    · simp; omega
    · intro i hi; rw [getD_drop]; exact hall _ (by omega) (by omega)
    · rw [getD_drop]; rw [show p + (q - p) = q by omega]; exact hstop
  refine ⟨?_, ?_⟩
  · unfold slice; rw [if_pos ⟨hpq, hq⟩, e]
  · rw [e]; simp; omega

/-- A word or number loop started at offset `p` inside the input reads exactly the maximal
run of bytes satisfying its condition. -/
theorem readRun_at (c : Nat → Bool) (h0 : c 0 = false) {input : Bytes} {p : Nat} {l : Lexer}
    (hl : At input p l) (hp : p ≤ input.length) :
    ∃ r, readWhile c (l.input.length + 2) l = some r ∧
      At input (p + ((input.drop p).takeWhile c).length) r ∧
      slice r.input l.position r.position = some ((input.drop p).takeWhile c) ∧
      c (input.getD (p + ((input.drop p).takeWhile c).length) 0) = false := by
  obtain ⟨r, hr⟩ := readWhile_total h0 (l.input.length + 2) l (by omega) (by omega)
  obtain ⟨q, a1, a2, a3, a4, a5⟩ := readWhile_at h0 input _ p l r hl hr
  obtain ⟨b1, b2⟩ := run_eq_slice c input p q a1 (a5 hp) a4 a3
  refine ⟨r, hr, ?_, ?_, ?_⟩
  · rw [← b2]; exact a2
  · rw [a2.hinput, hl.hpos, a2.hpos]; exact b1
  · rw [← b2]; exact a3

theorem readIdentifier_at {input : Bytes} {p : Nat} {l : Lexer} (hl : At input p l)
    (hp : p ≤ input.length) :
    ∃ r, readIdentifier l = some ((input.drop p).takeWhile isIdentChar, r) ∧
      At input (p + ((input.drop p).takeWhile isIdentChar).length) r := by
  obtain ⟨r, h1, h2, h3, _⟩ := readRun_at isIdentChar isIdentChar_zero hl hp
  exact ⟨r, by simp only [readIdentifier, h1, h3], h2⟩

theorem readNumber_at {input : Bytes} {p : Nat} {l : Lexer} (hl : At input p l)
    (hp : p ≤ input.length) :
    ∃ r, readNumber l = some ((input.drop p).takeWhile isDigit, r) ∧
      At input (p + ((input.drop p).takeWhile isDigit).length) r := by
  obtain ⟨r, h1, h2, h3, _⟩ := readRun_at isDigit isDigit_zero hl hp
  exact ⟨r, by simp only [readNumber, h1, h3], h2⟩

/-- The run that starts on a byte satisfying the condition is not empty. -/
theorem run_pos (c : Nat → Bool) (input : Bytes) (p : Nat) (h : c (input.getD p 0) = true)
    (hp : p < input.length) : 0 < ((input.drop p).takeWhile c).length := by
  have e : input.drop p = input.getD p 0 :: input.drop (p + 1) := by
    rw [List.getD_eq_getElem _ _ hp]; exact List.drop_eq_getElem_cons hp
  rw [e, List.takeWhile_cons, if_pos h]; simp

/-- The run starting at `p` ends inside the input. -/
theorem run_le (c : Nat → Bool) (input : Bytes) (p : Nat) (hp : p ≤ input.length) :
    p + ((input.drop p).takeWhile c).length ≤ input.length := by
  have h1 : ((input.drop p).takeWhile c).length ≤ (input.drop p).length :=
    (List.takeWhile_sublist _).length_le
  simp at h1; omega

/-! ## The keyword table -/

theorem lookup_cons_ite (a k : Bytes) (b : TokenType) (es : List (Bytes × TokenType)) :
    List.lookup a ((k, b) :: es) = if a = k then some b else List.lookup a es := by
  rw [List.lookup_cons]
  by_cases h : a = k
  · subst h; simp
  · have e : (a == k) = false := by simpa using h
    rw [e, if_neg h]

/-- The map lookup of `LookupIdent` as a chain of string comparisons. -/
theorem LookupIdent_eq (s : Bytes) : LookupIdent s =
    if s = bytes "function" then FUNCTION
    else if s = bytes "procedure" then PROCEDURE
    else if s = bytes "type" then TYPE
    else if s = bytes "var" then VAR
    else if s = bytes "record" then RECORD
    else if s = bytes "if" then IF
    else if s = bytes "else" then ELSE
    else if s = bytes "then" then THEN
    else if s = bytes "while" then WHILE
    else if s = bytes "do" then DO
    else if s = bytes "begin" then BEGIN
    else if s = bytes "end" then END
    else if s = bytes "nil" then NIL
    else IDENT := by
  unfold LookupIdent keywords
  repeat rw [lookup_cons_ite]
  rw [List.lookup_nil]
  by_cases h0 : s = bytes "function"
  · rw [if_pos h0, if_pos h0]
  rw [if_neg h0, if_neg h0]
  by_cases h1 : s = bytes "procedure"
  · rw [if_pos h1, if_pos h1]
  rw [if_neg h1, if_neg h1]
  by_cases h2 : s = bytes "type"
  · rw [if_pos h2, if_pos h2]
  rw [if_neg h2, if_neg h2]
  by_cases h3 : s = bytes "var"
  · rw [if_pos h3, if_pos h3]
  rw [if_neg h3, if_neg h3]
  by_cases h4 : s = bytes "record"
  · rw [if_pos h4, if_pos h4]
  rw [if_neg h4, if_neg h4]
  by_cases h5 : s = bytes "if"
  · rw [if_pos h5, if_pos h5]
  rw [if_neg h5, if_neg h5]
  by_cases h6 : s = bytes "else"
  · rw [if_pos h6, if_pos h6]
  rw [if_neg h6, if_neg h6]
  by_cases h7 : s = bytes "then"
  · rw [if_pos h7, if_pos h7]
  rw [if_neg h7, if_neg h7]
  by_cases h8 : s = bytes "while"
  · rw [if_pos h8, if_pos h8]
  rw [if_neg h8, if_neg h8]
  by_cases h9 : s = bytes "do"
  · rw [if_pos h9, if_pos h9]
  rw [if_neg h9, if_neg h9]
  by_cases h10 : s = bytes "begin"
  · rw [if_pos h10, if_pos h10]
  rw [if_neg h10, if_neg h10]
  by_cases h11 : s = bytes "end"
  · rw [if_pos h11, if_pos h11]
  rw [if_neg h11, if_neg h11]
  by_cases h12 : s = bytes "nil"
  · rw [if_pos h12, if_pos h12]
  rw [if_neg h12, if_neg h12]

/-- Either the word is one of the thirteen spellings and has its keyword class, or it is
none of them and has class `IDENT`. -/
theorem LookupIdent_cases (s : Bytes) :
    (s = bytes "function" ∧ LookupIdent s = FUNCTION) ∨
    (s = bytes "procedure" ∧ LookupIdent s = PROCEDURE) ∨
    (s = bytes "type" ∧ LookupIdent s = TYPE) ∨
    (s = bytes "var" ∧ LookupIdent s = VAR) ∨
    (s = bytes "record" ∧ LookupIdent s = RECORD) ∨
    (s = bytes "if" ∧ LookupIdent s = IF) ∨
    (s = bytes "else" ∧ LookupIdent s = ELSE) ∨
    (s = bytes "then" ∧ LookupIdent s = THEN) ∨
    (s = bytes "while" ∧ LookupIdent s = WHILE) ∨
    (s = bytes "do" ∧ LookupIdent s = DO) ∨
    (s = bytes "begin" ∧ LookupIdent s = BEGIN) ∨
    (s = bytes "end" ∧ LookupIdent s = END) ∨
    (s = bytes "nil" ∧ LookupIdent s = NIL) ∨
    ((s ≠ bytes "function" ∧ s ≠ bytes "procedure" ∧ s ≠ bytes "type" ∧ s ≠ bytes "var" ∧ s ≠ bytes "record" ∧ s ≠ bytes "if" ∧ s ≠ bytes "else" ∧ s ≠ bytes "then" ∧ s ≠ bytes "while" ∧ s ≠ bytes "do" ∧ s ≠ bytes "begin" ∧ s ≠ bytes "end" ∧ s ≠ bytes "nil") ∧
      LookupIdent s = IDENT) := by
  by_cases h0 : s = bytes "function"
  · subst h0; decide
  by_cases h1 : s = bytes "procedure"
  · subst h1; decide
  by_cases h2 : s = bytes "type"
  · subst h2; decide
  by_cases h3 : s = bytes "var"
  · subst h3; decide
  by_cases h4 : s = bytes "record"
  · subst h4; decide
  by_cases h5 : s = bytes "if"
  · subst h5; decide
  by_cases h6 : s = bytes "else"
  · subst h6; decide
  by_cases h7 : s = bytes "then"
  · subst h7; decide
  by_cases h8 : s = bytes "while"
  · subst h8; decide
  by_cases h9 : s = bytes "do"
  · subst h9; decide
  by_cases h10 : s = bytes "begin"
  · subst h10; decide
  by_cases h11 : s = bytes "end"
  · subst h11; decide
  by_cases h12 : s = bytes "nil"
  · subst h12; decide
  iterate 13 right
  refine ⟨⟨h0, h1, h2, h3, h4, h5, h6, h7, h8, h9, h10, h11, h12⟩, ?_⟩
  rw [LookupIdent_eq, if_neg h0, if_neg h1, if_neg h2, if_neg h3, if_neg h4, if_neg h5, if_neg h6, if_neg h7, if_neg h8, if_neg h9, if_neg h10, if_neg h11, if_neg h12]

/-- The class of a word is `IDENT` or one of the thirteen keyword classes. -/
theorem LookupIdent_mem (s : Bytes) : LookupIdent s ∈
    [IDENT, FUNCTION, PROCEDURE, TYPE, VAR, RECORD, IF, ELSE, THEN, WHILE, DO, BEGIN, END,
      NIL] := by
  rcases LookupIdent_cases s with h | h | h | h | h | h | h | h | h | h | h | h | h | h <;>
    (rw [h.2]; decide)

/-! ## Theorems about the keyword table -/

/-- C8: `LookupIdent s` is a keyword class exactly when `s` is byte for byte the lowercase
spelling of that keyword, and it is `IDENT` exactly for every other string; the case variants
`If` and `IF` of a keyword are identifiers. -/
theorem LookupIdent_exact (s : Bytes) :
    (LookupIdent s = FUNCTION ↔ s = bytes "function") ∧
    (LookupIdent s = PROCEDURE ↔ s = bytes "procedure") ∧
    (LookupIdent s = TYPE ↔ s = bytes "type") ∧
    (LookupIdent s = VAR ↔ s = bytes "var") ∧
    (LookupIdent s = RECORD ↔ s = bytes "record") ∧
    (LookupIdent s = IF ↔ s = bytes "if") ∧
    (LookupIdent s = ELSE ↔ s = bytes "else") ∧
    (LookupIdent s = THEN ↔ s = bytes "then") ∧
    (LookupIdent s = WHILE ↔ s = bytes "while") ∧
    (LookupIdent s = DO ↔ s = bytes "do") ∧
    (LookupIdent s = BEGIN ↔ s = bytes "begin") ∧
    (LookupIdent s = END ↔ s = bytes "end") ∧
    (LookupIdent s = NIL ↔ s = bytes "nil") ∧
    (LookupIdent s = IDENT ↔
      s ∉ [bytes "function", bytes "procedure", bytes "type", bytes "var", bytes "record", bytes "if", bytes "else", bytes "then", bytes "while", bytes "do", bytes "begin", bytes "end", bytes "nil"]) ∧
    LookupIdent (bytes "If") = IDENT ∧ LookupIdent (bytes "IF") = IDENT := by
  rcases LookupIdent_cases s with h | h | h | h | h | h | h | h | h | h | h | h | h | h
  iterate 13 (obtain ⟨rfl, _⟩ := h; decide)
  obtain ⟨⟨h0, h1, h2, h3, h4, h5, h6, h7, h8, h9, h10, h11, h12⟩, he⟩ := h
  refine ⟨⟨fun e => absurd (he.symm.trans e) (by decide), fun e => absurd e h0⟩, ⟨fun e => absurd (he.symm.trans e) (by decide), fun e => absurd e h1⟩, ⟨fun e => absurd (he.symm.trans e) (by decide), fun e => absurd e h2⟩, ⟨fun e => absurd (he.symm.trans e) (by decide), fun e => absurd e h3⟩, ⟨fun e => absurd (he.symm.trans e) (by decide), fun e => absurd e h4⟩, ⟨fun e => absurd (he.symm.trans e) (by decide), fun e => absurd e h5⟩, ⟨fun e => absurd (he.symm.trans e) (by decide), fun e => absurd e h6⟩, ⟨fun e => absurd (he.symm.trans e) (by decide), fun e => absurd e h7⟩, ⟨fun e => absurd (he.symm.trans e) (by decide), fun e => absurd e h8⟩, ⟨fun e => absurd (he.symm.trans e) (by decide), fun e => absurd e h9⟩, ⟨fun e => absurd (he.symm.trans e) (by decide), fun e => absurd e h10⟩, ⟨fun e => absurd (he.symm.trans e) (by decide), fun e => absurd e h11⟩, ⟨fun e => absurd (he.symm.trans e) (by decide), fun e => absurd e h12⟩, ?_, by decide, by decide⟩
  refine ⟨fun _ hm => ?_, fun _ => he⟩
  simp only [List.mem_cons, List.mem_singleton, List.not_mem_nil, or_false] at hm
  rcases hm with e | e | e | e | e | e | e | e | e | e | e | e | e <;> contradiction

/-! ## The token produced on a scan start -/

theorem LookupIdent_ne (x : Bytes) (t : TokenType)
    (ht : t ∉ [IDENT, FUNCTION, PROCEDURE, TYPE, VAR, RECORD, IF, ELSE, THEN, WHILE, DO, BEGIN,
      END, NIL]) : LookupIdent x ≠ t :=
  fun e => ht (e ▸ LookupIdent_mem x)

/-- Either the byte is one of the fourteen punctuation bytes and has its class, or it is none
of them and has class `ILLEGAL`. -/
theorem singleType_cases (c : Nat) :
    (c = 61 ∧ singleType c = EQ) ∨
    (c = 59 ∧ singleType c = SEMICOLON) ∨
    (c = 58 ∧ singleType c = COLON) ∨
    (c = 40 ∧ singleType c = LPAREN) ∨
    (c = 41 ∧ singleType c = RPAREN) ∨
    (c = 44 ∧ singleType c = COMMA) ∨
    (c = 43 ∧ singleType c = PLUS) ∨
    (c = 45 ∧ singleType c = MINUS) ∨
    (c = 42 ∧ singleType c = ASTERISK) ∨
    (c = 47 ∧ singleType c = SLASH) ∨
    (c = 60 ∧ singleType c = LT) ∨
    (c = 62 ∧ singleType c = GT) ∨
    (c = 94 ∧ singleType c = CARET) ∨
    (c = 46 ∧ singleType c = DOT) ∨
    ((c ≠ 61 ∧ c ≠ 59 ∧ c ≠ 58 ∧ c ≠ 40 ∧ c ≠ 41 ∧ c ≠ 44 ∧ c ≠ 43 ∧ c ≠ 45 ∧ c ≠ 42 ∧ c ≠ 47 ∧ c ≠ 60 ∧ c ≠ 62 ∧ c ≠ 94 ∧ c ≠ 46) ∧
      singleType c = ILLEGAL) := by
  unfold singleType
  by_cases h0 : c = 61
  · subst h0; decide
  by_cases h1 : c = 59
  · subst h1; decide
  by_cases h2 : c = 58
  · subst h2; decide
  by_cases h3 : c = 40
  · subst h3; decide
  by_cases h4 : c = 41
  · subst h4; decide
  by_cases h5 : c = 44
  · subst h5; decide
  by_cases h6 : c = 43
  · subst h6; decide
  by_cases h7 : c = 45
  · subst h7; decide
  by_cases h8 : c = 42
  · subst h8; decide
  by_cases h9 : c = 47
  · subst h9; decide
  by_cases h10 : c = 60
  · subst h10; decide
  by_cases h11 : c = 62
  · subst h11; decide
  by_cases h12 : c = 94
  · subst h12; decide
  by_cases h13 : c = 46
  · subst h13; decide
  iterate 14 right
  refine ⟨⟨h0, h1, h2, h3, h4, h5, h6, h7, h8, h9, h10, h11, h12, h13⟩, ?_⟩
  rw [if_neg h0, if_neg h1, if_neg h2, if_neg h3, if_neg h4, if_neg h5, if_neg h6, if_neg h7, if_neg h8, if_neg h9, if_neg h10, if_neg h11, if_neg h12, if_neg h13]

theorem singleType_mem (c : Nat) : singleType c ∈
    [EQ, SEMICOLON, COLON, LPAREN, RPAREN, COMMA, PLUS, MINUS, ASTERISK, SLASH, LT, GT, CARET,
      DOT, ILLEGAL] := by
  rcases singleType_cases c with
    h | h | h | h | h | h | h | h | h | h | h | h | h | h | h <;>
    (rw [h.2]; decide)

theorem singleType_ne (c : Nat) (t : TokenType)
    (ht : t ∉ [EQ, SEMICOLON, COLON, LPAREN, RPAREN, COMMA, PLUS, MINUS, ASTERISK, SLASH, LT, GT,
      CARET, DOT, ILLEGAL]) : singleType c ≠ t :=
  fun e => ht (e ▸ singleType_mem c)

theorem isLetter_ne_zero {c : Nat} (h : isLetter c = true) : c ≠ 0 := by
  rintro rfl; exact absurd h (by decide)

theorem isDigit_ne_zero {c : Nat} (h : isDigit c = true) : c ≠ 0 := by
  rintro rfl; exact absurd h (by decide)

theorem isIdentChar_of_isLetter {c : Nat} (h : isLetter c = true) : isIdentChar c = true := by
  simp [isIdentChar, h]

theorem scanToken_eof (s : Lexer) (h0 : s.ch = 0) :
    scanToken s =
      some ({ Typ := EOF, Literal := [], Line := s.line, Column := s.column }, readChar s) := by
  unfold scanToken; rw [if_pos h0]

theorem scanToken_letter {input : Bytes} {q : Nat} {s : Lexer} (hs : At input q s)
    (hl : isLetter s.ch = true) :
    ∃ r, scanToken s =
        some ({ Typ := LookupIdent ((input.drop q).takeWhile isIdentChar),
                Literal := (input.drop q).takeWhile isIdentChar,
                Line := s.line, Column := s.column }, r) ∧
      At input (q + ((input.drop q).takeWhile isIdentChar).length) r := by
  have h0 := isLetter_ne_zero hl
  obtain ⟨r, h1, h2⟩ := readIdentifier_at hs (le_of_lt (hs.lt_of_ch_ne_zero h0))
  refine ⟨r, ?_, h2⟩
  unfold scanToken; rw [if_neg h0, if_pos hl, h1]

theorem scanToken_digit {input : Bytes} {q : Nat} {s : Lexer} (hs : At input q s)
    (hl : isLetter s.ch = false) (hd : isDigit s.ch = true) :
    ∃ r, scanToken s =
        some ({ Typ := INT, Literal := (input.drop q).takeWhile isDigit,
                Line := s.line, Column := s.column }, r) ∧
      At input (q + ((input.drop q).takeWhile isDigit).length) r := by
  have h0 := isDigit_ne_zero hd
  obtain ⟨r, h1, h2⟩ := readNumber_at hs (le_of_lt (hs.lt_of_ch_ne_zero h0))
  refine ⟨r, ?_, h2⟩
  unfold scanToken; rw [if_neg h0, if_neg (by simp [hl]), if_pos hd, h1]

theorem twoCharToken_eq (s : Lexer) (t : TokenType) (hpk : peekChar s ≠ 10) :
    twoCharToken s t s.column =
      ({ Typ := t, Literal := byteToString s.ch ++ byteToString (peekChar s), Line := s.line,
         Column := s.column }, readChar (readChar s)) := by
  unfold twoCharToken
  simp [readChar_line, hpk]

theorem scanToken_two (s : Lexer) (t : TokenType)
    (h : (s.ch, peekChar s, t) ∈ twoCharOps) :
    scanToken s =
      some ({ Typ := t, Literal := [s.ch, peekChar s], Line := s.line, Column := s.column },
        readChar (readChar s)) := by
  simp only [twoCharOps, List.mem_cons, List.mem_singleton, List.not_mem_nil, or_false,
    Prod.mk.injEq] at h
  unfold scanToken
  rcases h with ⟨h1, h2, h3⟩ | ⟨h1, h2, h3⟩ | ⟨h1, h2, h3⟩ | ⟨h1, h2, h3⟩ <;>
    simp [h1, h2, h3, isLetter, isDigit, twoCharToken_eq, byteToString]

theorem scanToken_single (s : Lexer) (h0 : s.ch ≠ 0) (hl : isLetter s.ch = false)
    (hd : isDigit s.ch = false) (h2 : ∀ t, (s.ch, peekChar s, t) ∉ twoCharOps) :
    scanToken s = some (newToken s (singleType s.ch) s.ch s.column, readChar s) := by
  have a1 : ¬ (s.ch = 58 ∧ peekChar s = 61) := fun h => h2 ASSIGN (by simp [twoCharOps, h.1, h.2])
  have a2 : ¬ (s.ch = 60 ∧ peekChar s = 62) := fun h => h2 NOT_EQ (by simp [twoCharOps, h.1, h.2])
  have a3 : ¬ (s.ch = 60 ∧ peekChar s = 61) := fun h => h2 LTE (by simp [twoCharOps, h.1, h.2])
  have a4 : ¬ (s.ch = 62 ∧ peekChar s = 61) := fun h => h2 GTE (by simp [twoCharOps, h.1, h.2])
  unfold scanToken
  rw [if_neg h0, if_neg (by simp [hl]), if_neg (by simp [hd]), if_neg a1, if_neg a2, if_neg a3,
    if_neg a4]

/-- Every byte is of exactly one kind for the `switch`: the sentinel, the start of a word,
of a number, of a two-character operator, or a one-character token. -/
theorem scanToken_kind (s : Lexer) :
    s.ch = 0 ∨ isLetter s.ch = true ∨ (isLetter s.ch = false ∧ isDigit s.ch = true) ∨
      (∃ t, (s.ch, peekChar s, t) ∈ twoCharOps) ∨
      (s.ch ≠ 0 ∧ isLetter s.ch = false ∧ isDigit s.ch = false ∧
        ∀ t, (s.ch, peekChar s, t) ∉ twoCharOps) := by
  by_cases h0 : s.ch = 0
  · exact Or.inl h0
  by_cases hl : isLetter s.ch = true
  · exact Or.inr (Or.inl hl)
  by_cases hd : isDigit s.ch = true
  · exact Or.inr (Or.inr (Or.inl ⟨by simpa using hl, hd⟩))
  by_cases h2 : ∃ t, (s.ch, peekChar s, t) ∈ twoCharOps
  · exact Or.inr (Or.inr (Or.inr (Or.inl h2)))
  · exact Or.inr (Or.inr (Or.inr (Or.inr ⟨h0, by simpa using hl, by simpa using hd,
      fun t ht => h2 ⟨t, ht⟩⟩)))

/-! ## One call of `NextToken` on a state reached from `New` -/

/-- A call of `NextToken` at offset `p` skips to a scan start at an offset `q ≥ p` and returns
what the `switch` produces there. -/
theorem NextToken_at {input : Bytes} {p : Nat} {l : Lexer} (hl : At input p l) :
    ∃ s q, scanStart l = some s ∧ At input q s ∧ p ≤ q ∧
      (p ≤ input.length → q ≤ input.length) ∧ isWhitespace s.ch = false ∧
      ¬ (s.ch = 47 ∧ peekChar s = 47) ∧ NextToken l = scanToken s := by
  obtain ⟨s, hs⟩ := scanStart_total l
  obtain ⟨q, h1, h2, h3⟩ := scanStartFuel_at _ p l s hl hs
  obtain ⟨h4, h5⟩ := scanStartFuel_stop _ l s hs
  refine ⟨s, q, hs, h2, h1, h3, h4, h5, ?_⟩
  rw [NextToken_eq_bind, hs]
  exact NextTokenFuel_one s h4 h5

/-- The `switch` on a scan start at offset `q` returns a token that carries the line and
column of the scan start and leaves the lexer at a later offset; the token is `EOF` exactly
on the NUL sentinel. -/
theorem scanToken_at {input : Bytes} {q : Nat} {s : Lexer} (hs : At input q s) :
    ∃ tok l1 r, scanToken s = some (tok, l1) ∧ At input r l1 ∧ q < r ∧
      tok.Line = s.line ∧ tok.Column = s.column ∧
      (s.ch = 0 → tok.Typ = EOF ∧ tok.Literal = [] ∧ r = q + 1) ∧
      (s.ch ≠ 0 → tok.Typ ≠ EOF ∧ r ≤ input.length) := by
  rcases scanToken_kind s with h0 | hl | ⟨hl, hd⟩ | ⟨t, ht⟩ | ⟨h0, hl, hd, h2⟩
  · exact ⟨_, _, q + 1, scanToken_eof s h0, hs.readChar, by omega, rfl, rfl,
      fun _ => ⟨rfl, rfl, rfl⟩, fun h => absurd h0 h⟩
  · obtain ⟨r, h1, h2⟩ := scanToken_letter hs hl
    have h0 := isLetter_ne_zero hl
    have hq := hs.lt_of_ch_ne_zero h0
    have hpos := run_pos isIdentChar input q
      (by rw [← hs.hch]; exact isIdentChar_of_isLetter hl) hq
    have hle := run_le isIdentChar input q (le_of_lt hq)
    exact ⟨_, r, _, h1, h2, by omega, rfl, rfl, fun h => absurd h h0,
      fun _ => ⟨LookupIdent_ne _ _ (by decide), hle⟩⟩
  · obtain ⟨r, h1, h2⟩ := scanToken_digit hs hl hd
    have h0 := isDigit_ne_zero hd
    have hq := hs.lt_of_ch_ne_zero h0
    have hpos := run_pos isDigit input q (by rw [← hs.hch]; exact hd) hq
    have hle := run_le isDigit input q (le_of_lt hq)
    exact ⟨_, r, _, h1, h2, by omega, rfl, rfl, fun h => absurd h h0,
      fun _ => ⟨(by decide : INT ≠ EOF), hle⟩⟩
  · have hmem := ht
    simp only [twoCharOps, List.mem_cons, List.mem_singleton, List.not_mem_nil, or_false,
      Prod.mk.injEq] at hmem
    have hc0 : s.ch ≠ 0 := by
      rcases hmem with ⟨h1, _⟩ | ⟨h1, _⟩ | ⟨h1, _⟩ | ⟨h1, _⟩ <;> omega
    have hp0 : peekChar s ≠ 0 := by
      rcases hmem with ⟨_, h1, _⟩ | ⟨_, h1, _⟩ | ⟨_, h1, _⟩ | ⟨_, h1, _⟩ <;> omega
    have hte : t ≠ EOF := by
      rcases hmem with ⟨_, _, h1⟩ | ⟨_, _, h1⟩ | ⟨_, _, h1⟩ | ⟨_, _, h1⟩ <;>
        (rw [h1]; decide)
    have hq1 : q + 1 < input.length :=
      hs.readChar.lt_of_ch_ne_zero (by rw [readChar_ch]; exact hp0)
    exact ⟨_, _, q + 2, scanToken_two s t ht, hs.readChar.readChar, by omega, rfl, rfl,
      fun h => absurd h hc0, fun _ => ⟨hte, by omega⟩⟩
  · have hq := hs.lt_of_ch_ne_zero h0
    exact ⟨_, _, q + 1, scanToken_single s h0 hl hd h2, hs.readChar, by omega, rfl, rfl,
      fun h => absurd h h0, fun _ => ⟨singleType_ne _ _ (by decide), by omega⟩⟩

/-- One call on a reachable state: the call returns, the token carries the line and column
of its scan start, and the lexer moves to a later offset. -/
theorem NextToken_step {input : Bytes} {p : Nat} {l : Lexer} (hl : At input p l) :
    ∃ s q tok l1 r, scanStart l = some s ∧ At input q s ∧ p ≤ q ∧
      (p ≤ input.length → q ≤ input.length) ∧ isWhitespace s.ch = false ∧
      NextToken l = some (tok, l1) ∧ scanToken s = some (tok, l1) ∧ At input r l1 ∧ q < r ∧
      tok.Line = s.line ∧ tok.Column = s.column ∧
      (s.ch = 0 → tok.Typ = EOF ∧ tok.Literal = [] ∧ r = q + 1) ∧
      (s.ch ≠ 0 → tok.Typ ≠ EOF ∧ r ≤ input.length) := by
  obtain ⟨s, q, a1, a2, a3, a4, a5, _, a7⟩ := NextToken_at hl
  obtain ⟨tok, l1, r, b1, b2, b3, b4, b5, b6, b7⟩ := scanToken_at a2
  exact ⟨s, q, tok, l1, r, a1, a2, a3, a4, a5, by rw [a7, b1], b1, b2, b3, b4, b5, b6, b7⟩

/-! ## Successive calls -/

theorem callN_succ (l s : Lexer) (n : Nat) (h : callN n l = some s) :
    callN (n + 1) l = (NextToken s).map Prod.snd := by
  simp only [callN, h]

theorem nthToken_eq (l s : Lexer) (n : Nat) (h : callN n l = some s) :
    nthToken l n = (NextToken s).map Prod.fst := by
  simp only [nthToken, h]

theorem nthStart_eq (l s : Lexer) (n : Nat) (h : callN n l = some s) :
    nthStart l n = (scanStart s).map Lexer.position := by
  simp only [nthStart, h]

/-- Every state reached from `New input` is the state at some offset of `input`. -/
theorem callN_at (input : Bytes) : ∀ n, ∃ l p, callN n (New input) = some l ∧ At input p l := by
  intro n
  induction n with
  | zero => exact ⟨_, 0, rfl, At_New input⟩
  | succ n ih =>
    obtain ⟨l, p, h1, h2⟩ := ih
    obtain ⟨s, q, tok, l1, r, _, _, _, _, _, a6, _, a8, _⟩ := NextToken_step h2
    exact ⟨l1, r, by rw [callN_succ _ _ _ h1, a6]; rfl, a8⟩

/-- As long as no `EOF` token has been returned, each call has consumed at least one byte
and the lexer is still inside the input. -/
theorem callN_at_noEOF (input : Bytes) : ∀ n,
    (∀ i, i < n → ∀ t, nthToken (New input) i = some t → t.Typ ≠ EOF) →
    ∃ l p, callN n (New input) = some l ∧ At input p l ∧ n ≤ p ∧ p ≤ input.length := by
  intro n
  induction n with
  | zero => intro _; exact ⟨_, 0, rfl, At_New input, le_refl _, Nat.zero_le _⟩
  | succ n ih =>
    intro h
    obtain ⟨l, p, h1, h2, h3, h4⟩ := ih (fun i hi => h i (by omega))
    obtain ⟨s, q, tok, l1, r, _, _, a3, _, _, a6, _, a8, a9, _, _, a12, a13⟩ := NextToken_step h2
    have htok : nthToken (New input) n = some tok := by
      rw [nthToken_eq _ _ _ h1, a6]; rfl
    have hne := h n (by omega) tok htok
    have hch : s.ch ≠ 0 := fun h0 => hne (a12 h0).1
    exact ⟨l1, r, by rw [callN_succ _ _ _ h1, a6]; rfl, a8, by omega, (a13 hch).2⟩

/-! ## Lines and columns of later offsets -/

theorem lineAt_mono (input : Bytes) (q : Nat) : ∀ d, lineAt input q ≤ lineAt input (q + d) := by
  intro d
  induction d with
  | zero => exact le_refl _
  | succ d ih =>
    rw [← Nat.add_assoc, lineAt_succ]
    omega

/-- On the same line the column grows with the offset. -/
theorem columnAt_same_line (input : Bytes) (q : Nat) : ∀ d,
    lineAt input (q + d) = lineAt input q → columnAt input (q + d) = columnAt input q + d := by
  intro d
  induction d with
  | zero => intro _; rfl
  | succ d ih =>
    intro h
    have h1 := lineAt_mono input q d
    rw [← Nat.add_assoc, lineAt_succ] at h
    rw [← Nat.add_assoc, columnAt_succ]
    by_cases hc : input.getD (q + d) 0 = 10
    · rw [if_pos hc] at h; omega
    · rw [if_neg hc] at h
      rw [if_neg hc, ih (by omega)]
      omega

/-- A later offset has a lexicographically greater line and column. -/
theorem position_lt (input : Bytes) (q r : Nat) (h : q < r) :
    lineAt input q < lineAt input r ∨
      (lineAt input q = lineAt input r ∧ columnAt input q < columnAt input r) := by
  obtain ⟨d, rfl⟩ : ∃ d, r = q + d := ⟨r - q, by omega⟩
  have h1 := lineAt_mono input q d
  by_cases he : lineAt input (q + d) = lineAt input q
  · right
    exact ⟨he.symm, by rw [columnAt_same_line input q d he]; omega⟩
  · left; omega

/-! ## Theorems about the token stream -/

/-- C1: every token returned by successive `NextToken` calls on `New input`, up to and
including the first `EOF` token, carries the 1-based position of the byte offset `p` at which
its scan began: `p` is an offset of the input, `Line` is one more than the number of LF bytes
in `input[0..p)`, and `Column` is `p` minus the offset of the last LF before `p`, or `p + 1`
when no LF precedes `p`. -/
theorem token_position (input : Bytes) (n : Nat)
    (h : ∀ i, i < n → ∀ t, nthToken (New input) i = some t → t.Typ ≠ EOF) :
    ∃ tok p, nthToken (New input) n = some tok ∧ nthStart (New input) n = some p ∧
      p ≤ input.length ∧
      tok.Line = 1 + (input.take p).count 10 ∧
      (∀ q, q < p → input.getD q 0 = 10 → (∀ r, q < r → r < p → input.getD r 0 ≠ 10) →
        tok.Column = p - q) ∧
      ((∀ r, r < p → input.getD r 0 ≠ 10) → tok.Column = p + 1) := by
  obtain ⟨l, p0, h1, h2, _, h4⟩ := callN_at_noEOF input n h
  obtain ⟨s, q, tok, l1, r, a1, a2, _, a4, a5, a6, _, _, _, a10, a11, _, _⟩ := NextToken_step h2
  have hne : s.ch ≠ 10 := by
    intro e; rw [e] at a5; exact absurd a5 (by decide)
  obtain ⟨b1, b2⟩ := a2.line_column hne
  refine ⟨tok, q, by rw [nthToken_eq _ _ _ h1, a6]; rfl,
    by rw [nthStart_eq _ _ _ h1, a1, ← a2.hpos]; rfl, a4 h4, by rw [a10, b1]; rfl, ?_, ?_⟩
  · intro q1 c1 c2 c3
    rw [a11, b2, columnAt, lastLF_eq_some input q q1 c1 c2 c3]
  · intro c1
    rw [a11, b2, columnAt, lastLF_eq_none input q c1]

/-- The instance of `token_position` for the second token of the input `a LF b`: it starts at
offset 2, on line 2 and column 1. -/
theorem token_position_witness :
    ∃ tok p, nthToken (New [97, 10, 98]) 1 = some tok ∧ nthStart (New [97, 10, 98]) 1 = some p ∧
      p ≤ [97, 10, 98].length ∧
      tok.Line = 1 + (([97, 10, 98] : Bytes).take p).count 10 ∧
      (∀ q, q < p → ([97, 10, 98] : Bytes).getD q 0 = 10 →
        (∀ r, q < r → r < p → ([97, 10, 98] : Bytes).getD r 0 ≠ 10) → tok.Column = p - q) ∧
      ((∀ r, r < p → ([97, 10, 98] : Bytes).getD r 0 ≠ 10) → tok.Column = p + 1) :=
  token_position [97, 10, 98] 1 (by
    intro i hi t ht
    obtain rfl : i = 0 := by omega
    have e : nthToken (New [97, 10, 98]) 0 = some ⟨IDENT, [97], 1, 1⟩ := by decide
    rw [e] at ht
    cases ht
    decide)

/-- C2: every call of `NextToken` on a state reached from `New input` returns a token (the
recursive re-entry after a comment included), and an `EOF` token is returned after at most
`len(input)` tokens of another class, that is within `len(input) + 1` calls. -/
theorem NextToken_terminates (input : Bytes) :
    (∀ n, ∃ tok, nthToken (New input) n = some tok) ∧
    ∃ k, k ≤ input.length ∧ (∃ tok, nthToken (New input) k = some tok ∧ tok.Typ = EOF) ∧
      ∀ i, i < k → ∀ t, nthToken (New input) i = some t → t.Typ ≠ EOF := by
  have htot : ∀ n, ∃ tok, nthToken (New input) n = some tok := by
    intro n
    obtain ⟨l, p, h1, h2⟩ := callN_at input n
    obtain ⟨s, q, tok, l1, r, _, _, _, _, _, a6, _⟩ := NextToken_step h2
    exact ⟨tok, by rw [nthToken_eq _ _ _ h1, a6]; rfl⟩
  refine ⟨htot, ?_⟩
  have hex : ∃ k, ∃ tok, nthToken (New input) k = some tok ∧ tok.Typ = EOF := by
    by_contra hno
    have hall : ∀ i, i < input.length + 1 → ∀ t, nthToken (New input) i = some t →
        t.Typ ≠ EOF := fun i _ t ht he => hno ⟨i, t, ht, he⟩
    obtain ⟨l, p, _, _, h3, h4⟩ := callN_at_noEOF input (input.length + 1) hall
    omega
  classical
  refine ⟨Nat.find hex, ?_, Nat.find_spec hex, ?_⟩
  · by_contra hgt
    have hall : ∀ i, i < input.length + 1 → ∀ t, nthToken (New input) i = some t →
        t.Typ ≠ EOF := fun i hi t ht he =>
      Nat.find_min hex (m := i) (by omega) ⟨t, ht, he⟩
    obtain ⟨l, p, _, _, h3, h4⟩ := callN_at_noEOF input (input.length + 1) hall
    omega
  · intro i hi t ht he
    exact Nat.find_min hex hi ⟨t, ht, he⟩

/-- C3 at the failing inputs: on the empty input the first call returns `EOF` at line 1,
column 1 and the second call returns `EOF` at line 1, column 2; on the input `x` the `EOF`
tokens of the second, third and fourth call are at columns 2, 3 and 4. -/
theorem eof_column_drifts :
    nthToken (New []) 0 = some ⟨EOF, [], 1, 1⟩ ∧
    nthToken (New []) 1 = some ⟨EOF, [], 1, 2⟩ ∧
    nthToken (New [120]) 1 = some ⟨EOF, [], 1, 2⟩ ∧
    nthToken (New [120]) 2 = some ⟨EOF, [], 1, 3⟩ ∧
    nthToken (New [120]) 3 = some ⟨EOF, [], 1, 4⟩ := by
  decide

/-- C4 at the failing input: on the two bytes NUL, `a` the first call returns a token of
class `EOF`, whose scan began at offset 0, and the second call returns the identifier `a`, a
token of another class after the first `EOF` token; the call that returned `EOF` has moved
the lexer from offset 0 to offset 1. -/
theorem eof_then_ident_after_nul :
    nthStart (New [0, 97]) 0 = some 0 ∧
    nthToken (New [0, 97]) 0 = some ⟨EOF, [], 1, 1⟩ ∧
    (callN 1 (New [0, 97])).map Lexer.position = some 1 ∧
    nthToken (New [0, 97]) 1 = some ⟨IDENT, [97], 1, 2⟩ ∧
    nthToken (New [0, 97]) 2 = some ⟨EOF, [], 1, 3⟩ := by
  decide

/-- Past the end of the input every call returns `EOF` and stays past the end. -/
theorem callN_past_end (input : Bytes) (n : Nat) (l : Lexer) (p : Nat)
    (h1 : callN n (New input) = some l) (h2 : At input p l) (h3 : input.length ≤ p) :
    ∀ m, n ≤ m → ∃ l1 p1, callN m (New input) = some l1 ∧ At input p1 l1 ∧
      input.length ≤ p1 := by
  intro m hm
  induction m, hm using Nat.le_induction with
  | base => exact ⟨l, p, h1, h2, h3⟩
  | succ m _ ih =>
    obtain ⟨l1, p1, b1, b2, b3⟩ := ih
    obtain ⟨s, q, tok, l2, r, _, _, a3, _, _, a6, _, a8, a9, _⟩ := NextToken_step b2
    exact ⟨l2, r, by rw [callN_succ _ _ _ b1, a6]; rfl, a8, by omega⟩

/-- On an input without a NUL byte the `EOF` token is only returned at the end of the input,
and every later call returns a token of class `EOF`. -/
theorem eof_tail (input : Bytes) (hnul : 0 ∉ input) (n m : Nat) (hnm : n ≤ m) (tok : Token)
    (h : nthToken (New input) n = some tok) (hE : tok.Typ = EOF) :
    ∃ t, nthToken (New input) m = some t ∧ t.Typ = EOF := by
  rcases Nat.eq_or_lt_of_le hnm with rfl | hlt
  · exact ⟨tok, h, hE⟩
  obtain ⟨l, p, h1, h2⟩ := callN_at input n
  obtain ⟨s, q, tok1, l1, r, _, a2, _, _, _, a6, _, a8, a9, _, _, a12, a13⟩ := NextToken_step h2
  have e : tok1 = tok := by
    rw [nthToken_eq _ _ _ h1, a6] at h
    exact Option.some.inj h
  subst e
  have hch : s.ch = 0 := by
    by_contra hne
    exact (a13 hne).1 hE
  have hq : input.length ≤ q := by
    by_contra hlt1
    have hq1 : q < input.length := by omega
    apply hnul
    have := a2.hch
    rw [hch, List.getD_eq_getElem _ _ hq1] at this
    rw [this]
    exact List.getElem_mem hq1
  have hstep : callN (n + 1) (New input) = some l1 := by
    rw [callN_succ _ _ _ h1, a6]; rfl
  obtain ⟨l2, p2, c1, c2, c3⟩ := callN_past_end input (n + 1) l1 r hstep a8 (by omega) m hlt
  obtain ⟨s2, q2, tok2, l3, r2, _, d2, d3, _, _, d6, _, _, _, _, _, d12, _⟩ := NextToken_step c2
  exact ⟨tok2, by rw [nthToken_eq _ _ _ c1, d6]; rfl, (d12 (d2.ch_zero_of_le (by omega))).1⟩


/-! ## One-character tokens -/

/-- A one-character class among `:`, `<`, `>`, `=` comes from its own byte only. -/
theorem singleType_punct (c n : Nat) (t : TokenType)
    (hmem : (n, t) ∈ [(58, COLON), (60, LT), (62, GT), (61, EQ)])
    (h : singleType c = t) : c = n := by
  simp only [List.mem_cons, Prod.mk.injEq, List.mem_singleton, List.not_mem_nil,
    or_false] at hmem
  rcases hmem with ⟨rfl, rfl⟩ | ⟨rfl, rfl⟩ | ⟨rfl, rfl⟩ | ⟨rfl, rfl⟩ <;>
    rcases singleType_cases c with
      ⟨hc, ht⟩ | ⟨hc, ht⟩ | ⟨hc, ht⟩ | ⟨hc, ht⟩ | ⟨hc, ht⟩ | ⟨hc, ht⟩ | ⟨hc, ht⟩ | ⟨hc, ht⟩ | ⟨hc, ht⟩ | ⟨hc, ht⟩ | ⟨hc, ht⟩ | ⟨hc, ht⟩ | ⟨hc, ht⟩ | ⟨hc, ht⟩ | ⟨hc, ht⟩ <;>
    first
      | exact hc
      | (rw [ht] at h; exact absurd h (by decide))

/-- A token of class `:`, `<`, `>` or `=` is a one-character token: the two-character
branches were not taken and the lexer advanced by one `readChar`. -/
theorem scanToken_single_inv {input : Bytes} {q : Nat} {s l1 : Lexer} {tok : Token}
    (hs : At input q s) (h : scanToken s = some (tok, l1))
    (ht : tok.Typ ∈ [COLON, LT, GT, EQ]) :
    tok.Typ = singleType s.ch ∧ l1 = readChar s ∧ ∀ t, (s.ch, peekChar s, t) ∉ twoCharOps := by
  simp only [List.mem_cons, List.mem_singleton, List.not_mem_nil, or_false] at ht
  rcases scanToken_kind s with h0 | hl | ⟨hl, hd⟩ | ⟨t, h2⟩ | ⟨h0, hl, hd, h2⟩
  · rw [scanToken_eof s h0] at h
    obtain ⟨rfl, _⟩ := Prod.mk.inj (Option.some.inj h)
    rcases ht with e | e | e | e <;> (exfalso; dsimp only at e; revert e; decide)
  · obtain ⟨r, h1, _⟩ := scanToken_letter hs hl
    rw [h1] at h
    obtain ⟨rfl, _⟩ := Prod.mk.inj (Option.some.inj h)
    rcases ht with e | e | e | e <;> exact absurd e (LookupIdent_ne _ _ (by decide))
  · obtain ⟨r, h1, _⟩ := scanToken_digit hs hl hd
    rw [h1] at h
    obtain ⟨rfl, _⟩ := Prod.mk.inj (Option.some.inj h)
    rcases ht with e | e | e | e <;> (exfalso; dsimp only at e; revert e; decide)
  · rw [scanToken_two s t h2] at h
    obtain ⟨rfl, _⟩ := Prod.mk.inj (Option.some.inj h)
    simp only [twoCharOps, List.mem_cons, List.mem_singleton, List.not_mem_nil, or_false,
      Prod.mk.injEq] at h2
    rcases h2 with ⟨_, _, rfl⟩ | ⟨_, _, rfl⟩ | ⟨_, _, rfl⟩ | ⟨_, _, rfl⟩ <;>
      rcases ht with e | e | e | e <;> (exfalso; dsimp only at e; revert e; decide)
  · rw [scanToken_single s h0 hl hd h2] at h
    obtain ⟨rfl, rfl⟩ := Prod.mk.inj (Option.some.inj h)
    exact ⟨rfl, rfl, h2⟩

/-- Two consecutive tokens of one-character classes on the same line at adjacent columns
come from two adjacent bytes that do not spell a two-character operator. -/
theorem adjacent_single (input : Bytes) (n : Nat) (t1 t2 : Token)
    (h1 : nthToken (New input) n = some t1) (h2 : nthToken (New input) (n + 1) = some t2)
    (hline : t2.Line = t1.Line) (hcol : t2.Column = t1.Column + 1)
    (hT1 : t1.Typ ∈ [COLON, LT, GT, EQ]) (hT2 : t2.Typ ∈ [COLON, LT, GT, EQ]) :
    ∃ c d, singleType c = t1.Typ ∧ singleType d = t2.Typ ∧ ∀ t, (c, d, t) ∉ twoCharOps := by
  obtain ⟨l, p, a1, a2⟩ := callN_at input n
  obtain ⟨s, q, tok, l1, r, _, b2, _, _, b5, b6, b7, b8, b9, b10, b11, _, _⟩ :=
    NextToken_step a2
  have e1 : tok = t1 := by
    rw [nthToken_eq _ _ _ a1, b6] at h1; exact Option.some.inj h1
  subst e1
  have hstep : callN (n + 1) (New input) = some l1 := by
    rw [callN_succ _ _ _ a1, b6]; rfl
  obtain ⟨s2, q2, tok2, l2, r2, _, c2, c3, _, c5, c6, c7, _, _, c10, c11, _, _⟩ :=
    NextToken_step b8
  have e2 : tok2 = t2 := by
    rw [nthToken_eq _ _ _ hstep, c6] at h2; exact Option.some.inj h2
  subst e2
  obtain ⟨d1, d2, d3⟩ := scanToken_single_inv b2 b7 hT1
  obtain ⟨f1, _, _⟩ := scanToken_single_inv c2 c7 hT2
  have hr : r = q + 1 := by
    have := b8.hpos
    rw [d2, readChar_position, b2.hread] at this
    omega
  have hne1 : s.ch ≠ 10 := by
    intro e; rw [e] at b5; exact absurd b5 (by decide)
  have hne2 : s2.ch ≠ 10 := by
    intro e; rw [e] at c5; exact absurd c5 (by decide)
  obtain ⟨g1, g2⟩ := b2.line_column hne1
  obtain ⟨g3, g4⟩ := c2.line_column hne2
  obtain ⟨d, rfl⟩ : ∃ d, q2 = q + d := ⟨q2 - q, by omega⟩
  have hsame : lineAt input (q + d) = lineAt input q := by
    rw [← g3, ← g1, ← c10, ← b10]; exact hline
  have hcols := columnAt_same_line input q d hsame
  have hd : d = 1 := by
    rw [← g4, ← g2, ← c11, ← b11] at hcols
    omega
  subst hd
  refine ⟨s.ch, s2.ch, d1.symm, f1.symm, ?_⟩
  have : s2.ch = peekChar s := by rw [c2.hch, b2.peek]
  rw [this]
  exact d3

/-- C6: the token stream never contains two consecutive one-character tokens on the same line
at adjacent columns that spell a two-character operator: no `:` followed by `=`, no `<`
followed by `>`, no `<` followed by `=` and no `>` followed by `=`. -/
theorem no_split_operator (input : Bytes) (n : Nat) (t1 t2 : Token)
    (h1 : nthToken (New input) n = some t1) (h2 : nthToken (New input) (n + 1) = some t2)
    (hline : t2.Line = t1.Line) (hcol : t2.Column = t1.Column + 1) :
    ¬ (t1.Typ = COLON ∧ t2.Typ = EQ) ∧ ¬ (t1.Typ = LT ∧ t2.Typ = GT) ∧
      ¬ (t1.Typ = LT ∧ t2.Typ = EQ) ∧ ¬ (t1.Typ = GT ∧ t2.Typ = EQ) := by
  refine ⟨?_, ?_, ?_, ?_⟩
  · rintro ⟨e1, e2⟩
    obtain ⟨c, d, k1, k2, k3⟩ := adjacent_single input n t1 t2 h1 h2 hline hcol
      (by rw [e1]; decide) (by rw [e2]; decide)
    obtain rfl := singleType_punct c 58 COLON (by decide) (k1.trans e1)
    obtain rfl := singleType_punct d 61 EQ (by decide) (k2.trans e2)
    exact k3 ASSIGN (by decide)
  · rintro ⟨e1, e2⟩
    obtain ⟨c, d, k1, k2, k3⟩ := adjacent_single input n t1 t2 h1 h2 hline hcol
      (by rw [e1]; decide) (by rw [e2]; decide)
    obtain rfl := singleType_punct c 60 LT (by decide) (k1.trans e1)
    obtain rfl := singleType_punct d 62 GT (by decide) (k2.trans e2)
    exact k3 NOT_EQ (by decide)
  · rintro ⟨e1, e2⟩
    obtain ⟨c, d, k1, k2, k3⟩ := adjacent_single input n t1 t2 h1 h2 hline hcol
      (by rw [e1]; decide) (by rw [e2]; decide)
    obtain rfl := singleType_punct c 60 LT (by decide) (k1.trans e1)
    obtain rfl := singleType_punct d 61 EQ (by decide) (k2.trans e2)
    exact k3 LTE (by decide)
  · rintro ⟨e1, e2⟩
    obtain ⟨c, d, k1, k2, k3⟩ := adjacent_single input n t1 t2 h1 h2 hline hcol
      (by rw [e1]; decide) (by rw [e2]; decide)
    obtain rfl := singleType_punct c 62 GT (by decide) (k1.trans e1)
    obtain rfl := singleType_punct d 61 EQ (by decide) (k2.trans e2)
    exact k3 GTE (by decide)


/-- The instance of `no_split_operator` for the input `<<`: two `<` tokens at columns 1
and 2. -/
theorem no_split_operator_witness :
    ¬ ((⟨LT, [60], 1, 1⟩ : Token).Typ = COLON ∧ (⟨LT, [60], 1, 2⟩ : Token).Typ = EQ) ∧
      ¬ ((⟨LT, [60], 1, 1⟩ : Token).Typ = LT ∧ (⟨LT, [60], 1, 2⟩ : Token).Typ = GT) ∧
      ¬ ((⟨LT, [60], 1, 1⟩ : Token).Typ = LT ∧ (⟨LT, [60], 1, 2⟩ : Token).Typ = EQ) ∧
      ¬ ((⟨LT, [60], 1, 1⟩ : Token).Typ = GT ∧ (⟨LT, [60], 1, 2⟩ : Token).Typ = EQ) :=
  no_split_operator [60, 60] 0 ⟨LT, [60], 1, 1⟩ ⟨LT, [60], 1, 2⟩ (by decide) (by decide) rfl rfl

/-! ## Illegal bytes, words and numbers -/

/-- The scan start of call number `n` on `New input` is the lexer state at an offset of the
input text. -/
theorem scanStart_reached (input : Bytes) (n : Nat) (l s : Lexer)
    (hl : callN n (New input) = some l) (hs : scanStart l = some s) :
    ∃ p, At input p l ∧ At input s.position s ∧ p ≤ s.position ∧
      isWhitespace s.ch = false ∧ NextToken l = scanToken s := by
  obtain ⟨l0, p, a1, a2⟩ := callN_at input n
  rw [hl] at a1
  obtain rfl := Option.some.inj a1
  obtain ⟨s0, q, b1, b2, b3, _, b5, _, b7⟩ := NextToken_at a2
  rw [hs] at b1
  obtain rfl := Option.some.inj b1
  exact ⟨p, a2, by rw [b2.hpos]; exact b2, by rw [b2.hpos]; exact b3, b5, b7⟩

/-- C5 fails on the NUL byte and on bytes from 128: on the one-byte input NUL the token that
starts at offset 0 is `EOF` with empty text, and on the one-byte input 200 the text of the
`ILLEGAL` token is the two bytes 195, 136. -/
theorem illegal_byte_counterexample :
    nthStart (New [0]) 0 = some 0 ∧ nthToken (New [0]) 0 = some ⟨EOF, [], 1, 1⟩ ∧
    nthStart (New [200]) 0 = some 0 ∧
    nthToken (New [200]) 0 = some ⟨ILLEGAL, [195, 136], 1, 1⟩ := by
  decide

/-- C5, amended: when the scan of call number `n` begins at an offset `p` on a byte that is
not NUL (so that `p < len(input)`), not one of `( ) , + - * / ^ . = ; : < >`, not a letter or underscore
and not a digit, the call returns a token of class `ILLEGAL`, whose text is that single byte
when the byte is below 128, and it advances the cursor by exactly one byte; the next call
returns a token whose scan begins at or after offset `p + 1`. -/
theorem illegal_byte (input : Bytes) (n : Nat) (l s : Lexer)
    (hl : callN n (New input) = some l) (hs : scanStart l = some s)
    (hnul : input.getD s.position 0 ≠ 0)
    (hpunct : input.getD s.position 0 ∉
      [40, 41, 44, 43, 45, 42, 47, 94, 46, 61, 59, 58, 60, 62])
    (hletter : isLetter (input.getD s.position 0) = false)
    (hdigit : isDigit (input.getD s.position 0) = false) :
    s.position < input.length ∧
    ∃ tok l1, NextToken l = some (tok, l1) ∧ tok.Typ = ILLEGAL ∧
      (input.getD s.position 0 < 128 → tok.Literal = [input.getD s.position 0]) ∧
      l1.position = s.position + 1 ∧ callN (n + 1) (New input) = some l1 ∧
      ∃ t p, nthToken (New input) (n + 1) = some t ∧ nthStart (New input) (n + 1) = some p ∧
        s.position + 1 ≤ p := by
  obtain ⟨p, _, a2, _, _, a5⟩ := scanStart_reached input n l s hl hs
  rw [← a2.hch] at hnul hpunct hletter hdigit
  simp only [List.mem_cons, List.mem_singleton, List.not_mem_nil, or_false, not_or] at hpunct
  have h2 : ∀ t, (s.ch, peekChar s, t) ∉ twoCharOps := by
    intro t ht
    simp only [twoCharOps, List.mem_cons, List.mem_singleton, List.not_mem_nil, or_false,
      Prod.mk.injEq] at ht
    rcases ht with ⟨e, _⟩ | ⟨e, _⟩ | ⟨e, _⟩ | ⟨e, _⟩ <;> omega
  have hty : singleType s.ch = ILLEGAL := by
    rcases singleType_cases s.ch with
      h | h | h | h | h | h | h | h | h | h | h | h | h | h | h
    iterate 14 (exfalso; have := h.1; omega)
    exact h.2
  have hscan := scanToken_single s hnul hletter hdigit h2
  have hnext : NextToken l = some (newToken s ILLEGAL s.ch s.column, readChar s) := by
    rw [a5, hscan, hty]
  have hstep : callN (n + 1) (New input) = some (readChar s) := by
    rw [callN_succ _ _ _ hl, hnext]; rfl
  obtain ⟨s2, q2, tok2, l2, r2, c1, c2, c3, _, _, c6, _⟩ := NextToken_step a2.readChar
  refine ⟨a2.lt_of_ch_ne_zero hnul, _, _, hnext, rfl, ?_,
    by rw [readChar_position, a2.hread], hstep, tok2, q2,
    by rw [nthToken_eq _ _ _ hstep, c6]; rfl,
    by rw [nthStart_eq _ _ _ hstep, c1, ← c2.hpos]; rfl, c3⟩
  intro h128
  rw [← a2.hch] at h128 ⊢
  simp [newToken, byteToString, h128]

/-- The instance of `illegal_byte` for the input `a @ b`: the second call starts on `@`. -/
theorem illegal_byte_witness :
    (readChar (readChar (New [97, 32, 64, 32, 98]))).position <
      ([97, 32, 64, 32, 98] : Bytes).length ∧
    ∃ tok l1, NextToken (readChar (New [97, 32, 64, 32, 98])) = some (tok, l1) ∧
      tok.Typ = ILLEGAL ∧
      (([97, 32, 64, 32, 98] : Bytes).getD (readChar (readChar (New [97, 32, 64, 32, 98]))).position 0
          < 128 →
        tok.Literal =
          [([97, 32, 64, 32, 98] : Bytes).getD
            (readChar (readChar (New [97, 32, 64, 32, 98]))).position 0]) ∧
      l1.position = (readChar (readChar (New [97, 32, 64, 32, 98]))).position + 1 ∧
      callN (1 + 1) (New [97, 32, 64, 32, 98]) = some l1 ∧
      ∃ t p, nthToken (New [97, 32, 64, 32, 98]) (1 + 1) = some t ∧
        nthStart (New [97, 32, 64, 32, 98]) (1 + 1) = some p ∧
        (readChar (readChar (New [97, 32, 64, 32, 98]))).position + 1 ≤ p :=
  illegal_byte [97, 32, 64, 32, 98] 1 (readChar (New [97, 32, 64, 32, 98]))
    (readChar (readChar (New [97, 32, 64, 32, 98])))
    (by decide) (by decide) (by decide) (by decide) (by decide) (by decide)

/-- C9: when the scan of call number `n` begins at offset `p` on a letter or underscore, the
returned token's text is the maximal run of letters, digits and underscores of the input that
starts at `p` (the byte after the run is none of those), its class is `LookupIdent` of the
text, so a keyword class or `IDENT`, and the cursor is left at `p + len(text)`. -/
theorem identifier_token (input : Bytes) (n : Nat) (l s : Lexer)
    (hl : callN n (New input) = some l) (hs : scanStart l = some s)
    (hletter : isLetter (input.getD s.position 0) = true) :
    ∃ tok l1, NextToken l = some (tok, l1) ∧
      tok.Literal = (input.drop s.position).takeWhile isIdentChar ∧
      isIdentChar (input.getD (s.position + tok.Literal.length) 0) = false ∧
      tok.Typ = LookupIdent tok.Literal ∧
      tok.Typ ∈ [IDENT, FUNCTION, PROCEDURE, TYPE, VAR, RECORD, IF, ELSE, THEN, WHILE, DO,
        BEGIN, END, NIL] ∧
      l1.position = s.position + tok.Literal.length := by
  obtain ⟨p, _, a2, _, _, a5⟩ := scanStart_reached input n l s hl hs
  rw [← a2.hch] at hletter
  obtain ⟨r, b1, b2⟩ := scanToken_letter a2 hletter
  have hq := a2.lt_of_ch_ne_zero (isLetter_ne_zero hletter)
  obtain ⟨_, _, _, _, c5⟩ := readRun_at isIdentChar isIdentChar_zero a2 (le_of_lt hq)
  have hnext : NextToken l = some (⟨LookupIdent ((input.drop s.position).takeWhile isIdentChar),
      (input.drop s.position).takeWhile isIdentChar, s.line, s.column⟩, r) := by rw [a5, b1]
  exact ⟨_, r, hnext, rfl, c5, rfl, LookupIdent_mem _, b2.hpos⟩

/-- The instance of `identifier_token` for the input `if x`: the first call starts on `i`. -/
theorem identifier_token_witness :
    ∃ tok l1, NextToken (New [105, 102, 32, 120]) = some (tok, l1) ∧
      tok.Literal =
        (([105, 102, 32, 120] : Bytes).drop (New [105, 102, 32, 120]).position).takeWhile
          isIdentChar ∧
      isIdentChar (([105, 102, 32, 120] : Bytes).getD
        ((New [105, 102, 32, 120]).position + tok.Literal.length) 0) = false ∧
      tok.Typ = LookupIdent tok.Literal ∧
      tok.Typ ∈ [IDENT, FUNCTION, PROCEDURE, TYPE, VAR, RECORD, IF, ELSE, THEN, WHILE, DO,
        BEGIN, END, NIL] ∧
      l1.position = (New [105, 102, 32, 120]).position + tok.Literal.length :=
  identifier_token [105, 102, 32, 120] 0 (New [105, 102, 32, 120]) (New [105, 102, 32, 120])
    (by decide) (by decide) (by decide)

/-- C10: when the scan of call number `n` begins at offset `p` on a digit, the returned token
has class `INT`, its text is the maximal run of digits of the input that starts at `p`, kept
as text, and the cursor is left at `p + len(text)`; when a letter or underscore directly
follows the run, the next call begins its scan on it and returns the word that starts
there. -/
theorem number_token (input : Bytes) (n : Nat) (l s : Lexer)
    (hl : callN n (New input) = some l) (hs : scanStart l = some s)
    (hdigit : isDigit (input.getD s.position 0) = true) :
    ∃ tok l1, NextToken l = some (tok, l1) ∧ tok.Typ = INT ∧
      tok.Literal = (input.drop s.position).takeWhile isDigit ∧
      isDigit (input.getD (s.position + tok.Literal.length) 0) = false ∧
      l1.position = s.position + tok.Literal.length ∧
      (isLetter (input.getD (s.position + tok.Literal.length) 0) = true →
        ∃ t, nthStart (New input) (n + 1) = some (s.position + tok.Literal.length) ∧
          nthToken (New input) (n + 1) = some t ∧
          t.Literal = (input.drop (s.position + tok.Literal.length)).takeWhile isIdentChar ∧
          t.Typ = LookupIdent t.Literal) := by
  obtain ⟨p, _, a2, _, _, a5⟩ := scanStart_reached input n l s hl hs
  rw [← a2.hch] at hdigit
  have hnl : isLetter s.ch = false := by
    have h1 : 48 ≤ s.ch ∧ s.ch ≤ 57 := by simpa [isDigit] using hdigit
    simp [isLetter]; omega
  obtain ⟨r, b1, b2⟩ := scanToken_digit a2 hnl hdigit
  have hq := a2.lt_of_ch_ne_zero (isDigit_ne_zero hdigit)
  obtain ⟨_, _, _, _, c5⟩ := readRun_at isDigit isDigit_zero a2 (le_of_lt hq)
  have hnext : NextToken l = some (⟨INT, (input.drop s.position).takeWhile isDigit, s.line,
      s.column⟩, r) := by rw [a5, b1]
  refine ⟨_, r, hnext, rfl, rfl, c5, b2.hpos, ?_⟩
  intro hlet
  have hstep : callN (n + 1) (New input) = some r := by
    rw [callN_succ _ _ _ hl, hnext]; rfl
  have hrl : isLetter r.ch = true := by rw [b2.hch]; exact hlet
  have hws : isWhitespace r.ch = false := by
    have h1 : (97 ≤ r.ch ∧ r.ch ≤ 122 ∨ 65 ≤ r.ch ∧ r.ch ≤ 90) ∨ r.ch = 95 := by
      simpa [isLetter] using hrl
    simp [isWhitespace]; omega
  have hcm : ¬ (r.ch = 47 ∧ peekChar r = 47) := by
    rintro ⟨e, _⟩; rw [e] at hrl; exact absurd hrl (by decide)
  have hstart : scanStart r = some r := by
    simp only [scanStart, scanStartFuel, skipWhitespace_of_not r hws, hcm]; simp
  obtain ⟨r2, d1, _⟩ := scanToken_letter b2 hrl
  have hnt : NextToken r = scanToken r := by
    rw [NextToken_eq_bind, hstart]; exact NextTokenFuel_one r hws hcm
  exact ⟨_, by rw [nthStart_eq _ _ _ hstep, hstart, ← b2.hpos]; rfl,
    by rw [nthToken_eq _ _ _ hstep, hnt, d1]; rfl, rfl, rfl⟩

/-- The instance of `number_token` for the input `12ab`: the first call starts on `1`. -/
theorem number_token_witness :
    ∃ tok l1, NextToken (New [49, 50, 97, 98]) = some (tok, l1) ∧ tok.Typ = INT ∧
      tok.Literal =
        (([49, 50, 97, 98] : Bytes).drop (New [49, 50, 97, 98]).position).takeWhile isDigit ∧
      isDigit (([49, 50, 97, 98] : Bytes).getD
        ((New [49, 50, 97, 98]).position + tok.Literal.length) 0) = false ∧
      l1.position = (New [49, 50, 97, 98]).position + tok.Literal.length ∧
      (isLetter (([49, 50, 97, 98] : Bytes).getD
          ((New [49, 50, 97, 98]).position + tok.Literal.length) 0) = true →
        ∃ t, nthStart (New [49, 50, 97, 98]) (0 + 1) =
            some ((New [49, 50, 97, 98]).position + tok.Literal.length) ∧
          nthToken (New [49, 50, 97, 98]) (0 + 1) = some t ∧
          t.Literal = (([49, 50, 97, 98] : Bytes).drop
            ((New [49, 50, 97, 98]).position + tok.Literal.length)).takeWhile isIdentChar ∧
          t.Typ = LookupIdent t.Literal) :=
  number_token [49, 50, 97, 98] 0 (New [49, 50, 97, 98]) (New [49, 50, 97, 98])
    (by decide) (by decide) (by decide)

/-! ## Shifting the lexer behind a prefix that has been read -/

theorem readChar_eq_mk (l : Lexer) : readChar l =
    { input := l.input, position := l.readPosition, readPosition := l.readPosition + 1,
      ch := peekChar l, line := if peekChar l = 10 then l.line + 1 else l.line,
      column := if peekChar l = 10 then 0 else l.column + 1 } := by
  unfold readChar peekChar
  dsimp only
  split_ifs <;> simp_all

theorem peekChar_shift (pre : Bytes) (l : Lexer) : peekChar (shift pre l) = peekChar l := by
  rw [peekChar_eq, peekChar_eq]
  simp only [shift, List.getD_eq_getElem?_getD]
  rw [List.getElem?_append_right (by omega)]
  simp

theorem readChar_shift (pre : Bytes) (l : Lexer) :
    readChar (shift pre l) = shift pre (readChar l) := by
  rw [readChar_eq_mk, readChar_eq_mk, peekChar_shift]
  simp only [shift, Lexer.mk.injEq, true_and, and_true]
  omega

theorem readWhile_shift (c : Nat → Bool) (pre : Bytes) : ∀ (f : Nat) (l : Lexer),
    readWhile c f (shift pre l) = (readWhile c f l).map (shift pre) := by
  intro f
  induction f with
  | zero => intro l; rfl
  | succ f ih =>
    intro l
    have hch : (shift pre l).ch = l.ch := rfl
    simp only [readWhile, hch]
    split_ifs
    · rw [readChar_shift]; exact ih _
    · rfl

/-- A loop whose condition fails on NUL gives the same result with any larger fuel than the
one the source-level function passes. -/
theorem readWhile_more {c : Nat → Bool} (h0 : c 0 = false) (l : Lexer) (k : Nat) :
    readWhile c (l.input.length + 2 + k) l = readWhile c (l.input.length + 2) l := by
  obtain ⟨r, hr⟩ := readWhile_total h0 (l.input.length + 2) l (by omega) (by omega)
  rw [hr]
  exact readWhile_mono _ _ l r hr (by omega)

theorem skipWhitespace_shift (pre : Bytes) (l : Lexer) :
    skipWhitespace (shift pre l) = (skipWhitespace l).map (shift pre) := by
  unfold skipWhitespace
  rw [readWhile_shift]
  have e : (shift pre l).input.length + 2 = l.input.length + 2 + pre.length := by
    simp [shift]; omega
  rw [e, readWhile_more isWhitespace_zero]

theorem skipComment_shift (pre : Bytes) (l : Lexer) :
    skipComment (shift pre l) = (skipComment l).map (shift pre) := by
  simp only [skipComment]
  rw [readChar_shift, readWhile_shift]
  have e : (shift pre (readChar l)).input.length + 2 =
      (readChar l).input.length + 2 + pre.length := by
    simp [shift]; omega
  rw [e, readWhile_more isCommentChar_zero]
  cases readWhile isCommentChar ((readChar l).input.length + 2) (readChar l) with
  | none => rfl
  | some r => exact skipWhitespace_shift pre r

theorem slice_shift (pre input : Bytes) (a b : Nat) :
    slice (pre ++ input) (a + pre.length) (b + pre.length) = slice input a b := by
  unfold slice
  have e1 : (a + pre.length ≤ b + pre.length ∧ b + pre.length ≤ (pre ++ input).length) ↔
      (a ≤ b ∧ b ≤ input.length) := by
    simp; omega
  have e2 : (pre ++ input).drop (a + pre.length) = input.drop a := by
    rw [Nat.add_comm, ← List.drop_drop]; simp
  have e3 : b + pre.length - (a + pre.length) = b - a := by omega
  by_cases h : a ≤ b ∧ b ≤ input.length
  · rw [if_pos h, if_pos (e1.mpr h), e2, e3]
  · rw [if_neg h, if_neg (fun h1 => h (e1.mp h1))]

theorem readRun_shift (c : Nat → Bool) (h0 : c 0 = false) (pre : Bytes) (l : Lexer) :
    (match readWhile c ((shift pre l).input.length + 2) (shift pre l) with
      | none => none
      | some l1 =>
        match slice l1.input (shift pre l).position l1.position with
        | none => none
        | some s => some (s, l1)) =
    (match readWhile c (l.input.length + 2) l with
      | none => none
      | some l1 =>
        match slice l1.input l.position l1.position with
        | none => none
        | some s => some (s, l1)).map (shiftRun pre) := by
  have e : (shift pre l).input.length + 2 = l.input.length + 2 + pre.length := by
    simp [shift]; omega
  rw [e, readWhile_shift, readWhile_more h0]
  cases readWhile c (l.input.length + 2) l with
  | none => rfl
  | some r =>
    have e2 : slice (shift pre r).input (shift pre l).position (shift pre r).position =
        slice r.input l.position r.position := slice_shift pre r.input l.position r.position
    simp only [Option.map_some']
    rw [e2]
    cases slice r.input l.position r.position <;> rfl

theorem readIdentifier_shift (pre : Bytes) (l : Lexer) :
    readIdentifier (shift pre l) = (readIdentifier l).map (shiftRun pre) :=
  readRun_shift isIdentChar isIdentChar_zero pre l

theorem readNumber_shift (pre : Bytes) (l : Lexer) :
    readNumber (shift pre l) = (readNumber l).map (shiftRun pre) :=
  readRun_shift isDigit isDigit_zero pre l

theorem scanToken_shift (pre : Bytes) (s : Lexer) :
    scanToken (shift pre s) = (scanToken s).map (shiftResult pre) := by
  have hch : (shift pre s).ch = s.ch := rfl
  have hline : (shift pre s).line = s.line := rfl
  have hcol : (shift pre s).column = s.column := rfl
  have hpk := peekChar_shift pre s
  have hrc := readChar_shift pre s
  have hrc2 : readChar (readChar (shift pre s)) = shift pre (readChar (readChar s)) := by
    rw [readChar_shift, readChar_shift]
  rcases scanToken_kind s with h0 | hl | ⟨hl, hd⟩ | ⟨t, ht⟩ | ⟨h0, hl, hd, h2⟩
  · rw [scanToken_eof s h0, scanToken_eof _ (by rw [hch]; exact h0), hline, hcol, hrc]; rfl
  · have h0 := isLetter_ne_zero hl
    simp only [scanToken, hch, hline, hcol, h0, hl, if_true, if_false, readIdentifier_shift]
    cases readIdentifier s with
    | none => rfl
    | some r => rfl
  · have h0 := isDigit_ne_zero hd
    simp only [scanToken, hch, hline, hcol, h0, hl, hd, if_true, if_false, Bool.false_eq_true,
      readNumber_shift]
    cases readNumber s with
    | none => rfl
    | some r => rfl
  · rw [scanToken_two s t ht, scanToken_two (shift pre s) t (by rw [hch, hpk]; exact ht),
      hch, hpk, hline, hcol, hrc2]; rfl
  · rw [scanToken_single s h0 hl hd h2,
      scanToken_single (shift pre s) (by rw [hch]; exact h0) (by rw [hch]; exact hl)
        (by rw [hch]; exact hd) (by rw [hch, hpk]; exact h2), hch, hcol, hrc]; rfl

theorem scanStartFuel_shift (pre : Bytes) : ∀ (f : Nat) (l : Lexer),
    scanStartFuel f (shift pre l) = (scanStartFuel f l).map (shift pre) := by
  intro f
  induction f with
  | zero => intro l; rfl
  | succ f ih =>
    intro l
    simp only [scanStartFuel]
    rw [skipWhitespace_shift]
    cases skipWhitespace l with
    | none => rfl
    | some s =>
      have hch : (shift pre s).ch = s.ch := rfl
      simp only [Option.map_some', hch, peekChar_shift]
      split_ifs
      · rw [skipComment_shift]
        cases skipComment s with
        | none => rfl
        | some l1 => exact ih l1
      · rfl

theorem NextTokenFuel_shift (pre : Bytes) (f : Nat) (l : Lexer) :
    NextTokenFuel f (shift pre l) = (NextTokenFuel f l).map (shiftResult pre) := by
  rw [NextTokenFuel_eq_bind, NextTokenFuel_eq_bind, scanStartFuel_shift]
  cases hs : scanStartFuel f l with
  | none => rfl
  | some s =>
    obtain ⟨h1, h2⟩ := scanStartFuel_stop f l s hs
    have hch : (shift pre s).ch = s.ch := rfl
    simp only [Option.map_some', Option.some_bind]
    rw [NextTokenFuel_one s h1 h2,
      NextTokenFuel_one (shift pre s) (by rw [hch]; exact h1)
        (by rw [hch, peekChar_shift]; exact h2)]
    exact scanToken_shift pre s

/-- A call of `NextToken` on a shifted lexer returns the same token and the shifted lexer. -/
theorem NextToken_shift (pre : Bytes) (l : Lexer) (r : Token × Lexer)
    (h : NextToken l = some r) : NextToken (shift pre l) = some (shiftResult pre r) := by
  unfold NextToken at h ⊢
  rw [NextTokenFuel_shift]
  have := NextTokenFuel_mono _ ((shift pre l).input.length + 1) l r h (by simp [shift])
  rw [this]; rfl

/-! ## Comments -/

theorem NextTokenFuel_comment (f : Nat) (s : Lexer) (hws : isWhitespace s.ch = false)
    (h1 : s.ch = 47) (h2 : peekChar s = 47) :
    NextTokenFuel (f + 1) s = (skipComment s).bind (NextTokenFuel f) := by
  simp only [NextTokenFuel, skipWhitespace_of_not s hws, h1, h2]
  cases skipComment s <;> simp

theorem getD_append_length (pre rest : Bytes) (x : Nat) :
    (pre ++ x :: rest).getD pre.length 0 = x := by
  rw [List.getD_eq_getElem?_getD, List.getElem?_append_right (le_refl _), Nat.sub_self]
  simp

/-- The lexer that has read a prefix without LF up to the LF that follows it is the shifted
initial lexer of the rest. -/
theorem At_shift_New (pre rest : Bytes) (hlf : 10 ∉ pre) :
    At (pre ++ 10 :: rest) pre.length (shift pre (New (10 :: rest))) := by
  have hget : (pre ++ 10 :: rest).getD pre.length 0 = 10 := getD_append_length pre rest 10
  have hnew := At_New (10 :: rest)
  have hch : (New (10 :: rest)).ch = 10 := by rw [hnew.hch]; rfl
  have hline : (New (10 :: rest)).line = 2 := by
    rw [hnew.hline, lineAt_succ]; simp [lineAt]
  have hcol : (New (10 :: rest)).column = 0 := by
    have := hnew.hcol
    rw [columnAt_succ] at this
    simp at this
    exact this
  refine ⟨?_, ?_, ?_, ?_, ?_, ?_⟩
  · rfl
  · simp [shift, hnew.hpos]
  · simp [shift, hnew.hread]; omega
  · rw [hget]; exact hch
  · rw [lineAt_succ, hget]
    simp only [shift, hline, lineAt, if_true]
    rw [List.take_left' rfl, List.count_eq_zero.mpr hlf]
  · rw [columnAt_succ, hget]
    simp [shift, hcol]

/-- The first call on a text that begins with a line comment returns what the first call on
the rest of the text from the LF returns. -/
theorem comment_first_call (c rest : Bytes) (hlf : 10 ∉ c) (hnul : 0 ∉ c) :
    ∃ tok l1, NextToken (New (10 :: rest)) = some (tok, l1) ∧
      NextToken (New (47 :: 47 :: (c ++ 10 :: rest))) =
        some (tok, shift (47 :: 47 :: c) l1) := by
  have hinput : 47 :: 47 :: (c ++ 10 :: rest) = (47 :: 47 :: c) ++ 10 :: rest := rfl
  have hlf2 : 10 ∉ 47 :: 47 :: c := by simp [hlf]
  have hzero : 0 ∉ 47 :: 47 :: c := by simp [hnul]
  rw [hinput]
  generalize hpre : 47 :: 47 :: c = pre at hlf2 hzero
  have hklen : 2 ≤ pre.length := by rw [← hpre]; simp
  have h0 := At_New (pre ++ 10 :: rest)
  have hch : (New (pre ++ 10 :: rest)).ch = 47 := by rw [h0.hch, ← hpre]; rfl
  have hpk : peekChar (New (pre ++ 10 :: rest)) = 47 := by rw [h0.peek, ← hpre]; rfl
  have hws : isWhitespace (New (pre ++ 10 :: rest)).ch = false := by rw [hch]; decide
  -- the comment loop stops on the LF
  have hcomment : ∀ i, i < pre.length →
      isCommentChar ((pre ++ 10 :: rest).getD i 0) = true := by
    intro i hi
    have e : (pre ++ 10 :: rest).getD i 0 = pre[i] := by
      simp [List.getD_eq_getElem?_getD, List.getElem?_append_left hi, hi]
    have hmem : pre[i] ∈ pre := List.getElem_mem hi
    have n1 : pre[i] ≠ 10 := fun h => hlf2 (h ▸ hmem)
    have n2 : pre[i] ≠ 0 := fun h => hzero (h ▸ hmem)
    rw [e]; simp [isCommentChar, n1, n2]
  have hstop : isCommentChar ((pre ++ 10 :: rest).getD pre.length 0) = false := by
    rw [getD_append_length]; decide
  obtain ⟨r, hr⟩ := readWhile_total isCommentChar_zero
    ((readChar (New (pre ++ 10 :: rest))).input.length + 2)
    (readChar (New (pre ++ 10 :: rest))) (by omega) (by omega)
  obtain ⟨q, a1, a2, a3, a4, _⟩ :=
    readWhile_at isCommentChar_zero (pre ++ 10 :: rest) _ 1 _ r h0.readChar hr
  have hq : q = pre.length := by
    rcases Nat.lt_trichotomy q pre.length with hlt | heq | hgt
    · rw [hcomment q hlt] at a3; exact absurd a3 (by decide)
    · exact heq
    · rw [a4 pre.length (by omega) hgt] at hstop; exact absurd hstop (by decide)
  rw [hq] at a2
  have hr2 : r = shift pre (New (10 :: rest)) := a2.unique (At_shift_New pre rest hlf2)
  -- the rest of the call
  obtain ⟨s2, hs2⟩ := skipWhitespace_total (New (10 :: rest))
  have hskip : skipComment (New (pre ++ 10 :: rest)) = some (shift pre s2) := by
    simp only [skipComment, hr]
    rw [hr2, skipWhitespace_shift, hs2]; rfl
  obtain ⟨_, _, tok, l1, _, _, _, _, _, _, b6, _⟩ := NextToken_step (At_New (10 :: rest))
  refine ⟨tok, l1, b6, ?_⟩
  have e1 : NextTokenFuel ((New (10 :: rest)).input.length + 1) s2 = some (tok, l1) := by
    rw [← NextTokenFuel_skip _ _ _ hs2]; exact b6
  have e2 := NextTokenFuel_mono _ ((New (pre ++ 10 :: rest)).input.length) s2 _ e1
    (by rw [h0.hinput, (At_New (10 :: rest)).hinput]; simp; omega)
  unfold NextToken
  rw [NextTokenFuel_comment _ _ hws hch hpk, hskip, Option.some_bind, NextTokenFuel_shift, e2]
  rfl

/-- After the first call, the lexer on the text with the comment is the shifted lexer on the
rest of the text. -/
theorem comment_callN (c rest : Bytes) (hlf : 10 ∉ c) (hnul : 0 ∉ c) : ∀ n,
    ∃ l2, callN (n + 1) (New (10 :: rest)) = some l2 ∧
      callN (n + 1) (New (47 :: 47 :: (c ++ 10 :: rest))) = some (shift (47 :: 47 :: c) l2) := by
  intro n
  induction n with
  | zero =>
    obtain ⟨tok, l1, h1, h2⟩ := comment_first_call c rest hlf hnul
    exact ⟨l1, by rw [callN_succ _ _ 0 rfl, h1]; rfl, by rw [callN_succ _ _ 0 rfl, h2]; rfl⟩
  | succ n ih =>
    obtain ⟨l2, h1, h2⟩ := ih
    obtain ⟨l0, p, a1, a2⟩ := callN_at (10 :: rest) (n + 1)
    rw [h1] at a1
    obtain rfl := Option.some.inj a1
    obtain ⟨_, _, tok, l3, _, _, _, _, _, _, b6, _⟩ := NextToken_step a2
    exact ⟨l3, by rw [callN_succ _ _ _ h1, b6]; rfl,
      by rw [callN_succ _ _ _ h2, NextToken_shift _ _ _ b6]; rfl⟩

/-- C7: for every `c` without LF and NUL and every `rest`, the tokens produced from
`"//" ++ c ++ "\n" ++ rest` are, one by one, the tokens produced from `"\n" ++ rest`, equal in
class, text, line and column: the comment contributes no token, and every token is on line 2
or later. -/
theorem comment_elided (c rest : Bytes) (hlf : 10 ∉ c) (hnul : 0 ∉ c) (n : Nat) :
    ∃ tok, nthToken (New (47 :: 47 :: (c ++ 10 :: rest))) n = some tok ∧
      nthToken (New (10 :: rest)) n = some tok ∧ 2 ≤ tok.Line := by
  have hline : ∀ tok, nthToken (New (10 :: rest)) n = some tok → 2 ≤ tok.Line := by
    intro tok ht
    obtain ⟨l, p, a1, a2⟩ := callN_at (10 :: rest) n
    obtain ⟨s, q, tok1, l1, r, _, b2, _, _, b5, b6, _, _, _, b10, _⟩ := NextToken_step a2
    rw [nthToken_eq _ _ _ a1, b6] at ht
    obtain rfl := Option.some.inj ht
    have hne : s.ch ≠ 10 := by
      intro e; rw [e] at b5; exact absurd b5 (by decide)
    have hq : q ≠ 0 := by
      rintro rfl
      exact hne (by rw [b2.hch]; rfl)
    obtain ⟨d, rfl⟩ : ∃ d, q = 1 + d := ⟨q - 1, by omega⟩
    have h1 := lineAt_mono (10 :: rest) 1 d
    have h2 : lineAt (10 :: rest) 1 = 2 := by simp [lineAt]
    rw [b10, (b2.line_column hne).1]
    omega
  cases n with
  | zero =>
    obtain ⟨tok, l1, h1, h2⟩ := comment_first_call c rest hlf hnul
    have e : nthToken (New (10 :: rest)) 0 = some tok := by
      rw [nthToken_eq _ _ 0 rfl, h1]; rfl
    exact ⟨tok, by rw [nthToken_eq _ _ 0 rfl, h2]; rfl, e, hline tok e⟩
  | succ n =>
    obtain ⟨l2, h1, h2⟩ := comment_callN c rest hlf hnul n
    obtain ⟨l0, p, a1, a2⟩ := callN_at (10 :: rest) (n + 1)
    rw [h1] at a1
    obtain rfl := Option.some.inj a1
    obtain ⟨_, _, tok, l3, _, _, _, _, _, _, b6, _⟩ := NextToken_step a2
    have e : nthToken (New (10 :: rest)) (n + 1) = some tok := by
      rw [nthToken_eq _ _ _ h1, b6]; rfl
    exact ⟨tok, by rw [nthToken_eq _ _ _ h2, NextToken_shift _ _ _ b6]; rfl, e, hline tok e⟩

/-- The instance of `comment_elided` for the text `//c`, LF, `if`: the first token. -/
theorem comment_elided_witness :
    (10 ∉ ([99] : Bytes) ∧ 0 ∉ ([99] : Bytes)) ∧
    ∃ tok, nthToken (New (47 :: 47 :: ([99] ++ 10 :: [105, 102]))) 0 = some tok ∧
      nthToken (New (10 :: [105, 102])) 0 = some tok ∧ 2 ≤ tok.Line :=
  ⟨by decide, comment_elided [99] [105, 102] (by decide) (by decide) 0⟩

/-! ## The text of a token -/

theorem drop_getD (input : Bytes) (q : Nat) (hq : q < input.length) :
    input.drop q = input.getD q 0 :: input.drop (q + 1) := by
  rw [List.getD_eq_getElem _ _ hq]; exact List.drop_eq_getElem_cons hq

/-- The input from offset `q` is the run that starts at `q` followed by the input from the
end of the run. -/
theorem drop_eq_run_append (c : Nat → Bool) (input : Bytes) (q : Nat) :
    input.drop q = (input.drop q).takeWhile c ++
      input.drop (q + ((input.drop q).takeWhile c).length) := by
  have h1 : (input.drop q).takeWhile c =
      (input.drop q).take ((input.drop q).takeWhile c).length :=
    List.prefix_iff_eq_take.mp (List.takeWhile_prefix c)
  have h2 := List.take_append_drop ((input.drop q).takeWhile c).length (input.drop q)
  rw [← h1, List.drop_drop] at h2
  exact h2.symm

theorem NextToken_of_scanStart (l s : Lexer) (h : scanStart l = some s) :
    NextToken l = scanToken s := by
  obtain ⟨h1, h2⟩ := scanStartFuel_stop _ l s h
  rw [NextToken_eq_bind, h]
  exact NextTokenFuel_one s h1 h2

/-- On a scan start at offset `q` on a byte from 1 to 127 the token's text is the input from
`q` to the offset at which the call leaves the lexer, and it is not empty. -/
theorem scanToken_text {input : Bytes} {q : Nat} {s : Lexer} (hs : At input q s)
    (h128 : s.ch < 128) (h0 : s.ch ≠ 0) :
    ∃ tok l1, scanToken s = some (tok, l1) ∧ At input (q + tok.Literal.length) l1 ∧
      0 < tok.Literal.length ∧
      input.drop q = tok.Literal ++ input.drop (q + tok.Literal.length) := by
  have hq := hs.lt_of_ch_ne_zero h0
  rcases scanToken_kind s with h | hl | ⟨hl, hd⟩ | ⟨t, ht⟩ | ⟨_, hl, hd, h2⟩
  · exact absurd h h0
  · obtain ⟨r, h1, h2⟩ := scanToken_letter hs hl
    exact ⟨_, r, h1, h2,
      run_pos isIdentChar input q (by rw [← hs.hch]; exact isIdentChar_of_isLetter hl) hq,
      drop_eq_run_append isIdentChar input q⟩
  · obtain ⟨r, h1, h2⟩ := scanToken_digit hs hl hd
    exact ⟨_, r, h1, h2, run_pos isDigit input q (by rw [← hs.hch]; exact hd) hq,
      drop_eq_run_append isDigit input q⟩
  · have hmem := ht
    simp only [twoCharOps, List.mem_cons, List.mem_singleton, List.not_mem_nil, or_false,
      Prod.mk.injEq] at hmem
    have hp0 : peekChar s ≠ 0 := by
      rcases hmem with ⟨_, h1, _⟩ | ⟨_, h1, _⟩ | ⟨_, h1, _⟩ | ⟨_, h1, _⟩ <;> omega
    have hq1 : q + 1 < input.length :=
      hs.readChar.lt_of_ch_ne_zero (by rw [readChar_ch]; exact hp0)
    refine ⟨_, _, scanToken_two s t ht, hs.readChar.readChar, by simp, ?_⟩
    show input.drop q = [s.ch, peekChar s] ++ input.drop (q + 2)
    rw [drop_getD input q hq, drop_getD input (q + 1) hq1, hs.hch, hs.peek]
    rfl
  · refine ⟨_, _, scanToken_single s h0 hl hd h2, ?_, ?_, ?_⟩
    · simp only [newToken, byteToString, if_pos h128]; exact hs.readChar
    · simp [newToken, byteToString, h128]
    · simp only [newToken, byteToString, if_pos h128]
      rw [drop_getD input q hq, hs.hch]; rfl

/-- C11 at the failing input: on the one-byte input 200 the token whose scan begins at offset
0 has the two-byte text 195, 136, which is no substring of the input: the input from offset 0
is the single byte 200, and the call has consumed one byte. -/
theorem illegal_text_not_input :
    nthStart (New [200]) 0 = some 0 ∧
    nthToken (New [200]) 0 = some ⟨ILLEGAL, [195, 136], 1, 1⟩ ∧
    (([200] : Bytes).drop 0).take 2 = [200] ∧
    (callN 1 (New [200])).map Lexer.position = some 1 := by
  decide

/-- A token whose scan began at byte offset `p` on a byte from 1 to 127 has a text that is
not empty and equal to `input[p .. p + len(text))`, byte for byte, and the call leaves the
cursor at `p + len(text)`; every `EOF` token has empty text. -/
theorem token_text (input : Bytes) (n : Nat) :
    ∃ tok p, nthToken (New input) n = some tok ∧ nthStart (New input) n = some p ∧
      (1 ≤ input.getD p 0 → input.getD p 0 < 128 →
        0 < tok.Literal.length ∧ p + tok.Literal.length ≤ input.length ∧
        tok.Literal = (input.drop p).take tok.Literal.length ∧
        (callN (n + 1) (New input)).map Lexer.position = some (p + tok.Literal.length)) ∧
      (tok.Typ = EOF → tok.Literal = []) := by
  obtain ⟨l, p0, h1, h2⟩ := callN_at input n
  obtain ⟨s, q, tok, l1, r, a1, a2, _, _, _, a6, a7, a8, _, _, _, a12, a13⟩ := NextToken_step h2
  have hE : tok.Typ = EOF → tok.Literal = [] := by
    intro hE
    by_cases h0 : s.ch = 0
    · exact (a12 h0).2.1
    · exact absurd hE (a13 h0).1
  refine ⟨tok, q, by rw [nthToken_eq _ _ _ h1, a6]; rfl,
    by rw [nthStart_eq _ _ _ h1, a1, ← a2.hpos]; rfl, ?_, hE⟩
  intro h1le h128
  rw [← a2.hch] at h128 h1le
  have h0 : s.ch ≠ 0 := by omega
  obtain ⟨tok1, l2, b1, b2, b3, b4⟩ := scanToken_text a2 h128 h0
  rw [a7] at b1
  obtain ⟨rfl, rfl⟩ := Prod.mk.inj (Option.some.inj b1)
  have hlen := congrArg List.length b4
  simp only [List.length_drop, List.length_append] at hlen
  have hq := a2.lt_of_ch_ne_zero h0
  refine ⟨b3, by omega, by rw [b4, List.take_left' rfl], ?_⟩
  rw [callN_succ _ _ _ h1, a6]
  show some l1.position = _
  rw [b2.hpos]

/-! ## The order of the tokens -/

/-- C12 at the failing input: on the input 200, `a` the first token starts at offset 0 and
has a text of two bytes, and the second token starts at offset 1, before the byte that
follows the text of the first. -/
theorem illegal_text_overlaps_next :
    nthStart (New [200, 97]) 0 = some 0 ∧
    nthToken (New [200, 97]) 0 = some ⟨ILLEGAL, [195, 136], 1, 1⟩ ∧
    nthStart (New [200, 97]) 1 = some 1 ∧
    nthToken (New [200, 97]) 1 = some ⟨IDENT, [97], 1, 2⟩ := by
  decide

/-- For two consecutive tokens of which the earlier one and all tokens before it are not
`EOF` (the later one may be the first `EOF`): both begin at offsets of the input, the line and
column of the later one are lexicographically strictly greater than those of the earlier one,
the later token begins after the first byte of the earlier one, and, when the scan of the
earlier token began on a byte below 128, at or after the byte that follows its text. -/
theorem token_order (input : Bytes) (n : Nat)
    (hno : ∀ i, i < n + 1 → ∀ t, nthToken (New input) i = some t → t.Typ ≠ EOF) :
    ∃ t1 t2 p1 p2, nthToken (New input) n = some t1 ∧ nthToken (New input) (n + 1) = some t2 ∧
      nthStart (New input) n = some p1 ∧ nthStart (New input) (n + 1) = some p2 ∧
      (t1.Line < t2.Line ∨ (t1.Line = t2.Line ∧ t1.Column < t2.Column)) ∧
      p1 < p2 ∧ p2 ≤ input.length ∧
      (input.getD p1 0 < 128 → p1 + t1.Literal.length ≤ p2) := by
  obtain ⟨l, p0, h1, h2⟩ := callN_at input n
  obtain ⟨s, q, tok, l1, r, a1, a2, _, _, a5, a6, a7, a8, a9, a10, a11, a12, _⟩ :=
    NextToken_step h2
  have hstep : callN (n + 1) (New input) = some l1 := by
    rw [callN_succ _ _ _ h1, a6]; rfl
  obtain ⟨l1a, ra, k1, k2, _, k4⟩ := callN_at_noEOF input (n + 1) hno
  rw [hstep] at k1
  obtain rfl := Option.some.inj k1
  have hr : r = ra := by rw [← a8.hpos, ← k2.hpos]
  subst hr
  obtain ⟨s2, q2, tok2, l2, r2, c1, c2, c3, c4, c5, c6, _, _, _, c10, c11, _, _⟩ :=
    NextToken_step a8
  have hne1 : s.ch ≠ 10 := by
    intro e; rw [e] at a5; exact absurd a5 (by decide)
  have hne2 : s2.ch ≠ 10 := by
    intro e; rw [e] at c5; exact absurd c5 (by decide)
  obtain ⟨g1, g2⟩ := a2.line_column hne1
  obtain ⟨g3, g4⟩ := c2.line_column hne2
  refine ⟨tok, tok2, q, q2, by rw [nthToken_eq _ _ _ h1, a6]; rfl,
    by rw [nthToken_eq _ _ _ hstep, c6]; rfl,
    by rw [nthStart_eq _ _ _ h1, a1, ← a2.hpos]; rfl,
    by rw [nthStart_eq _ _ _ hstep, c1, ← c2.hpos]; rfl, ?_, by omega, c4 k4, ?_⟩
  · rw [a10, a11, c10, c11, g1, g2, g3, g4]
    exact position_lt input q q2 (by omega)
  · intro h128
    rw [← a2.hch] at h128
    by_cases h0 : s.ch = 0
    · rw [(a12 h0).2.1]; simp; omega
    · obtain ⟨tok1, l3, b1, b2, _, _⟩ := scanToken_text a2 h128 h0
      rw [a7] at b1
      obtain ⟨rfl, rfl⟩ := Prod.mk.inj (Option.some.inj b1)
      have e1 := a8.hpos
      have e2 := b2.hpos
      omega

/-! ## Punctuation and operators -/

/-- A byte with a `case` of its own that does not start a two-character operator gives the
one-character token of its class. -/
theorem scanToken_punct (s : Lexer) (c : Nat) (t : TokenType) (hc : s.ch = c)
    (hmem : (c, t) ∈ [(61, EQ), (59, SEMICOLON), (58, COLON), (40, LPAREN), (41, RPAREN),
      (44, COMMA), (43, PLUS), (45, MINUS), (42, ASTERISK), (47, SLASH), (60, LT), (62, GT),
      (94, CARET), (46, DOT)])
    (h2 : ∀ u, (s.ch, peekChar s, u) ∉ twoCharOps) :
    scanToken s =
      some ({ Typ := t, Literal := [c], Line := s.line, Column := s.column }, readChar s) := by
  simp only [List.mem_cons, List.mem_singleton, List.not_mem_nil, or_false,
    Prod.mk.injEq] at hmem
  rcases hmem with ⟨rfl, rfl⟩ | ⟨rfl, rfl⟩ | ⟨rfl, rfl⟩ | ⟨rfl, rfl⟩ | ⟨rfl, rfl⟩ | ⟨rfl, rfl⟩ |
    ⟨rfl, rfl⟩ | ⟨rfl, rfl⟩ | ⟨rfl, rfl⟩ | ⟨rfl, rfl⟩ | ⟨rfl, rfl⟩ | ⟨rfl, rfl⟩ | ⟨rfl, rfl⟩ |
    ⟨rfl, rfl⟩ <;>
    (rw [scanToken_single s (by rw [hc]; decide) (by rw [hc]; decide) (by rw [hc]; decide) h2,
      hc]; rfl)

theorem not_twoCharOps_of_ch (s : Lexer) (h58 : s.ch ≠ 58) (h60 : s.ch ≠ 60)
    (h62 : s.ch ≠ 62) : ∀ u, (s.ch, peekChar s, u) ∉ twoCharOps := by
  intro u hu
  simp only [twoCharOps, List.mem_cons, List.mem_singleton, List.not_mem_nil, or_false,
    Prod.mk.injEq] at hu
  rcases hu with ⟨e, _⟩ | ⟨e, _⟩ | ⟨e, _⟩ | ⟨e, _⟩ <;> omega

theorem not_twoCharOps_of_peek (s : Lexer) (h1 : ¬ (s.ch = 58 ∧ peekChar s = 61))
    (h2 : ¬ (s.ch = 60 ∧ peekChar s = 62)) (h3 : ¬ (s.ch = 60 ∧ peekChar s = 61))
    (h4 : ¬ (s.ch = 62 ∧ peekChar s = 61)) : ∀ u, (s.ch, peekChar s, u) ∉ twoCharOps := by
  intro u hu
  simp only [twoCharOps, List.mem_cons, List.mem_singleton, List.not_mem_nil, or_false,
    Prod.mk.injEq] at hu
  rcases hu with ⟨e1, e2, _⟩ | ⟨e1, e2, _⟩ | ⟨e1, e2, _⟩ | ⟨e1, e2, _⟩
  · exact h1 ⟨e1, e2⟩
  · exact h2 ⟨e1, e2⟩
  · exact h3 ⟨e1, e2⟩
  · exact h4 ⟨e1, e2⟩

/-- C13: in every lexer state `l` whose call of `NextToken` begins a token on the state `s`
with character `c = s.ch` and next character `d = peekChar s`: for `c` one of
`( ) , + - * ^ . = ;` the token has the class of `c`, text `c`, and one `readChar` is done;
`/` with `d` not `/` gives `SLASH`; `:` gives `ASSIGN` with text `:=` and two `readChar`s when
`d` is `=`, else `COLON`; `<` gives `NOT_EQ` with text `<>` when `d` is `>`, else `LTE` with
text `<=` when `d` is `=`, else `LT`; `>` gives `GTE` with text `>=` when `d` is `=`, else
`GT`.  One `readChar` moves the cursor by one character and two by two. -/
theorem punctuation_token (l s : Lexer) (hs : scanStart l = some s) :
    (∀ c t, (c, t) ∈ [(40, LPAREN), (41, RPAREN), (44, COMMA), (43, PLUS), (45, MINUS),
        (42, ASTERISK), (94, CARET), (46, DOT), (61, EQ), (59, SEMICOLON)] → s.ch = c →
      NextToken l = some (⟨t, [c], s.line, s.column⟩, readChar s)) ∧
    (s.ch = 47 → peekChar s ≠ 47 →
      NextToken l = some (⟨SLASH, [47], s.line, s.column⟩, readChar s)) ∧
    (s.ch = 58 → peekChar s = 61 →
      NextToken l = some (⟨ASSIGN, [58, 61], s.line, s.column⟩, readChar (readChar s))) ∧
    (s.ch = 58 → peekChar s ≠ 61 →
      NextToken l = some (⟨COLON, [58], s.line, s.column⟩, readChar s)) ∧
    (s.ch = 60 → peekChar s = 62 →
      NextToken l = some (⟨NOT_EQ, [60, 62], s.line, s.column⟩, readChar (readChar s))) ∧
    (s.ch = 60 → peekChar s = 61 →
      NextToken l = some (⟨LTE, [60, 61], s.line, s.column⟩, readChar (readChar s))) ∧
    (s.ch = 60 → peekChar s ≠ 62 → peekChar s ≠ 61 →
      NextToken l = some (⟨LT, [60], s.line, s.column⟩, readChar s)) ∧
    (s.ch = 62 → peekChar s = 61 →
      NextToken l = some (⟨GTE, [62, 61], s.line, s.column⟩, readChar (readChar s))) ∧
    (s.ch = 62 → peekChar s ≠ 61 →
      NextToken l = some (⟨GT, [62], s.line, s.column⟩, readChar s)) ∧
    (readChar s).position = s.readPosition ∧
    (readChar s).readPosition = s.readPosition + 1 ∧
    (readChar (readChar s)).position = s.readPosition + 1 ∧
    (readChar (readChar s)).readPosition = s.readPosition + 2 := by
  rw [NextToken_of_scanStart l s hs]
  refine ⟨?_, ?_, ?_, ?_, ?_, ?_, ?_, ?_, ?_, by simp, by simp, by simp, by simp⟩
  · intro c t hmem hc
    have h2 : ∀ u, (s.ch, peekChar s, u) ∉ twoCharOps := by
      simp only [List.mem_cons, List.mem_singleton, List.not_mem_nil, or_false,
        Prod.mk.injEq] at hmem
      apply not_twoCharOps_of_ch <;>
        (rcases hmem with ⟨e, _⟩ | ⟨e, _⟩ | ⟨e, _⟩ | ⟨e, _⟩ | ⟨e, _⟩ | ⟨e, _⟩ | ⟨e, _⟩ |
          ⟨e, _⟩ | ⟨e, _⟩ | ⟨e, _⟩ <;> omega)
    refine scanToken_punct s c t hc ?_ h2
    simp only [List.mem_cons, List.mem_singleton, List.not_mem_nil, or_false,
      Prod.mk.injEq] at hmem
    rcases hmem with ⟨rfl, rfl⟩ | ⟨rfl, rfl⟩ | ⟨rfl, rfl⟩ | ⟨rfl, rfl⟩ | ⟨rfl, rfl⟩ |
      ⟨rfl, rfl⟩ | ⟨rfl, rfl⟩ | ⟨rfl, rfl⟩ | ⟨rfl, rfl⟩ | ⟨rfl, rfl⟩ <;> decide
  · intro hc _
    exact scanToken_punct s 47 SLASH hc (by decide)
      (not_twoCharOps_of_ch s (by omega) (by omega) (by omega))
  · intro hc hp
    have := scanToken_two s ASSIGN (by rw [hc, hp]; decide)
    rw [hc, hp] at this; exact this
  · intro hc hp
    exact scanToken_punct s 58 COLON hc (by decide)
      (not_twoCharOps_of_peek s (fun h => hp h.2) (by omega) (by omega) (by omega))
  · intro hc hp
    have := scanToken_two s NOT_EQ (by rw [hc, hp]; decide)
    rw [hc, hp] at this; exact this
  · intro hc hp
    have := scanToken_two s LTE (by rw [hc, hp]; decide)
    rw [hc, hp] at this; exact this
  · intro hc hp1 hp2
    exact scanToken_punct s 60 LT hc (by decide)
      (not_twoCharOps_of_peek s (by omega) (fun h => hp1 h.2) (fun h => hp2 h.2) (by omega))
  · intro hc hp
    have := scanToken_two s GTE (by rw [hc, hp]; decide)
    rw [hc, hp] at this; exact this
  · intro hc hp
    exact scanToken_punct s 62 GT hc (by decide)
      (not_twoCharOps_of_peek s (by omega) (by omega) (by omega) (fun h => hp h.2))


/-- The instance of `punctuation_token` for the input `:=`: the call begins on `:` with next
character `=` and returns `ASSIGN` after two `readChar`s. -/
theorem punctuation_token_witness :
    scanStart (New [58, 61]) = some (New [58, 61]) ∧
    NextToken (New [58, 61]) =
      some (⟨ASSIGN, [58, 61], (New [58, 61]).line, (New [58, 61]).column⟩,
        readChar (readChar (New [58, 61]))) :=
  ⟨by decide, (punctuation_token (New [58, 61]) (New [58, 61]) (by decide)).2.2.1
    (by decide) (by decide)⟩

/-! ## Invariants of the lexer states reached from `New` -/

/-- C17 at the failing inputs: on the empty input the first call returns `EOF` and the state
after it has `position = 1`, which is greater than the length `0` of the input; on the input
`x` the state after two calls has `position = 2`. -/
theorem position_past_end :
    nthToken (New []) 0 = some ⟨EOF, [], 1, 1⟩ ∧
    (callN 1 (New [])).map Lexer.position = some 1 ∧ ([] : Bytes).length = 0 ∧
    (callN 2 (New [120])).map Lexer.position = some 2 ∧ ([120] : Bytes).length = 1 := by
  decide

/-- As long as no call has returned an `EOF` token the cursor is inside the input,
`position ≤ len(input)`; and in every state reached by any number of calls the current
character is the NUL sentinel whenever `position ≥ len(input)`. -/
theorem position_bound (input : Bytes) (n : Nat) :
    ∃ l, callN n (New input) = some l ∧
      ((∀ i, i < n → ∀ t, nthToken (New input) i = some t → t.Typ ≠ EOF) →
        l.position ≤ input.length) ∧
      (input.length ≤ l.position → l.ch = 0) := by
  obtain ⟨l, p, h1, h2⟩ := callN_at input n
  refine ⟨l, h1, ?_, ?_⟩
  · intro h
    obtain ⟨l1, p1, a1, a2, _, a4⟩ := callN_at_noEOF input n h
    rw [h1] at a1
    obtain rfl := Option.some.inj a1
    rw [a2.hpos]; exact a4
  · intro h
    rw [h2.hpos] at h
    exact h2.ch_zero_of_le h

/-- C18 fails when the current character is an LF: the initial state on the one-byte input
LF is at offset 0, whose 1-based position is line 1, column 1, with `line = 2` and
`column = 0`; the state after the first call on `a`, LF is at offset 1, whose position is
line 1, column 2, with `line = 2` and `column = 0`. -/
theorem current_line_column_counterexample :
    (New [10]).position = 0 ∧ (New [10]).ch = 10 ∧ (New [10]).line = 2 ∧
    (New [10]).column = 0 ∧ lineAt [10] 0 = 1 ∧ columnAt [10] 0 = 1 ∧
    (callN 1 (New [97, 10])).map Lexer.position = some 1 ∧
    (callN 1 (New [97, 10])).map Lexer.line = some 2 ∧
    (callN 1 (New [97, 10])).map Lexer.column = some 0 ∧
    lineAt [97, 10] 1 = 1 ∧ columnAt [97, 10] 1 = 2 := by
  decide

/-- C18, amended: in every lexer state reached from `New input` whose current character is
not an LF, `line` and `column` are the 1-based line and column of the current character (the
character at index `position`), where the column is 1 at the start of the text and
immediately after an LF and grows by one per other character; when the current character is
an LF, `line` is already the line after it and `column` is 0. -/
theorem current_line_column (input : Bytes) (n : Nat) :
    ∃ l, callN n (New input) = some l ∧
      (l.ch ≠ 10 → l.line = 1 + (input.take l.position).count 10 ∧
        l.column = columnAt input l.position) ∧
      (l.ch = 10 → l.line = 2 + (input.take l.position).count 10 ∧ l.column = 0) ∧
      columnAt input 0 = 1 ∧
      (∀ q, columnAt input (q + 1) = if input.getD q 0 = 10 then 1 else columnAt input q + 1) := by
  obtain ⟨l, p, h1, h2⟩ := callN_at input n
  refine ⟨l, h1, ?_, ?_, rfl, columnAt_succ input⟩
  · intro hne
    rw [h2.hpos]
    exact h2.line_column hne
  · intro he
    have e1 := h2.hline
    have e2 := h2.hcol
    have hget : input.getD p 0 = 10 := by rw [← h2.hch]; exact he
    rw [lineAt_succ, if_pos hget] at e1
    rw [columnAt_succ, if_pos hget] at e2
    rw [h2.hpos]
    unfold lineAt at e1
    exact ⟨by omega, by omega⟩

/-- C19: in every lexer state reached from `New input` by any number of `NextToken` calls,
`readPosition = position + 1`, the current character is `input[position]` when
`position < len(input)` and NUL otherwise, `peekChar` returns `input[position + 1]` when that
index is in range and NUL otherwise, and the `input` field is the input text. -/
theorem state_consistent (input : Bytes) (n : Nat) :
    ∃ l, callN n (New input) = some l ∧
      l.readPosition = l.position + 1 ∧
      (l.position < input.length → some l.ch = input[l.position]?) ∧
      (input.length ≤ l.position → l.ch = 0) ∧
      (l.position + 1 < input.length → some (peekChar l) = input[l.position + 1]?) ∧
      (input.length ≤ l.position + 1 → peekChar l = 0) ∧
      l.input = input := by
  obtain ⟨l, p, h1, h2⟩ := callN_at input n
  have hp := h2.hpos
  refine ⟨l, h1, by rw [h2.hread, hp], ?_, ?_, ?_, ?_, h2.hinput⟩
  · intro h
    rw [h2.hch, hp, List.getD_eq_getElem?_getD]
    rw [hp] at h
    rw [List.getElem?_eq_getElem h]; rfl
  · intro h
    rw [hp] at h
    exact h2.ch_zero_of_le h
  · intro h
    rw [h2.peek, hp, List.getD_eq_getElem?_getD]
    rw [hp] at h
    rw [List.getElem?_eq_getElem h]; rfl
  · intro h
    rw [hp] at h
    rw [h2.peek]
    exact List.getD_eq_default _ _ h


/-! ## The texts of the tokens of a text without whitespace and comments -/

theorem callN_succ_front (l l1 : Lexer) (tok : Token) (h : NextToken l = some (tok, l1)) :
    ∀ n, callN (n + 1) l = callN n l1 := by
  intro n
  induction n with
  | zero => rw [callN_succ l l 0 rfl, h]; rfl
  | succ n ih =>
    show (match callN (n + 1) l with
      | none => none
      | some s => (NextToken s).map Prod.snd) = callN (n + 1) l1
    rw [ih]; rfl

theorem nthToken_succ_front (l l1 : Lexer) (tok : Token) (h : NextToken l = some (tok, l1))
    (n : Nat) : nthToken l (n + 1) = nthToken l1 n := by
  unfold nthToken
  rw [callN_succ_front l l1 tok h n]

theorem scanStart_self (l : Lexer) (hws : isWhitespace l.ch = false)
    (hcm : ¬ (l.ch = 47 ∧ peekChar l = 47)) : scanStart l = some l := by
  simp only [scanStart, scanStartFuel, skipWhitespace_of_not l hws, hcm]; simp

/-- From an offset `p` of a text of bytes 1 to 127 without whitespace and without `//`, the
texts of the tokens before the first `EOF` token spell the text from `p`. -/
theorem concat_from (input : Bytes) (hascii : ∀ b ∈ input, 1 ≤ b ∧ b ≤ 127)
    (hws : ∀ b ∈ input, b ≠ 32 ∧ b ≠ 9 ∧ b ≠ 13 ∧ b ≠ 10)
    (hslash : ∀ i, i < input.length → ¬ (input.getD i 0 = 47 ∧ input.getD (i + 1) 0 = 47)) :
    ∀ (d p : Nat) (l : Lexer), At input p l → p + d = input.length →
      ∃ toks : List Token, (∀ i, i < toks.length → nthToken l i = toks[i]?) ∧
        (∀ t ∈ toks, t.Typ ≠ EOF) ∧
        (∃ t, nthToken l toks.length = some t ∧ t.Typ = EOF) ∧
        (toks.map Token.Literal).flatten = input.drop p := by
  intro d
  induction d using Nat.strong_induction_on with
  | _ d ih =>
    intro p l hl hpd
    by_cases hp : p < input.length
    · -- a token starts at `p`
      have hmem : input.getD p 0 ∈ input := by
        rw [List.getD_eq_getElem _ _ hp]; exact List.getElem_mem hp
      have hb := hascii _ hmem
      have hw := hws _ hmem
      rw [← hl.hch] at hb hw
      have hws1 : isWhitespace l.ch = false := by
        simp [isWhitespace]; omega
      have hcm : ¬ (l.ch = 47 ∧ peekChar l = 47) := by
        rw [hl.hch, hl.peek]; exact hslash p hp
      have hnt := NextToken_of_scanStart l l (scanStart_self l hws1 hcm)
      obtain ⟨tok, l1, b1, b2, b3, b4⟩ := scanToken_text hl (by omega) (by omega)
      obtain ⟨tok1, l2, r, c1, _, _, _, _, _, c7⟩ := scanToken_at hl
      rw [b1] at c1
      obtain ⟨rfl, _⟩ := Prod.mk.inj (Option.some.inj c1)
      have hne : tok.Typ ≠ EOF := (c7 (by omega)).1
      have hlen := congrArg List.length b4
      simp only [List.length_drop, List.length_append] at hlen
      obtain ⟨toks, e1, e2, ⟨t, e3, e4⟩, e5⟩ :=
        ih (input.length - (p + tok.Literal.length)) (by omega)
          (p + tok.Literal.length) l1 b2 (by omega)
      have hnext : NextToken l = some (tok, l1) := by rw [hnt, b1]
      refine ⟨tok :: toks, ?_, ?_, ⟨t, ?_, e4⟩, ?_⟩
      · intro i hi
        cases i with
        | zero => rw [nthToken_eq l l 0 rfl, hnext]; simp
        | succ i =>
          rw [nthToken_succ_front l l1 tok hnext i]
          simpa using e1 i (by simpa using hi)
      · intro t1 ht1
        rcases List.mem_cons.mp ht1 with rfl | h
        · exact hne
        · exact e2 t1 h
      · rw [List.length_cons, nthToken_succ_front l l1 tok hnext]; exact e3
      · rw [List.map_cons, List.flatten_cons, e5, ← b4]
    · -- the end of the text
      have hz : l.ch = 0 := hl.ch_zero_of_le (by omega)
      have hws1 : isWhitespace l.ch = false := by rw [hz]; decide
      have hcm : ¬ (l.ch = 47 ∧ peekChar l = 47) := by rw [hz]; omega
      have hnt := NextToken_of_scanStart l l (scanStart_self l hws1 hcm)
      rw [scanToken_eof l hz] at hnt
      refine ⟨[], fun i hi => absurd hi (Nat.not_lt_zero i), fun t ht => absurd ht (List.not_mem_nil t),
        ⟨_, by rw [List.length_nil, nthToken_eq l l 0 rfl, hnt]; rfl, rfl⟩, ?_⟩
      rw [List.drop_eq_nil_of_le (by omega)]; rfl

/-- C20: for every input text that consists only of bytes 1 to 127, contains no space, tab,
CR or LF and no two adjacent `/`, the texts of the tokens returned by `NextToken` before the
first `EOF` token, concatenated in order, are exactly the input. -/
theorem texts_concat (input : Bytes) (hascii : ∀ b ∈ input, 1 ≤ b ∧ b ≤ 127)
    (hws : ∀ b ∈ input, b ≠ 32 ∧ b ≠ 9 ∧ b ≠ 13 ∧ b ≠ 10)
    (hslash : ∀ i, i < input.length → ¬ (input.getD i 0 = 47 ∧ input.getD (i + 1) 0 = 47)) :
    ∃ toks : List Token, (∀ i, i < toks.length → nthToken (New input) i = toks[i]?) ∧
      (∀ t ∈ toks, t.Typ ≠ EOF) ∧
      (∃ t, nthToken (New input) toks.length = some t ∧ t.Typ = EOF) ∧
      (toks.map Token.Literal).flatten = input := by
  obtain ⟨toks, h1, h2, h3, h4⟩ :=
    concat_from input hascii hws hslash input.length 0 (New input) (At_New input) (by omega)
  exact ⟨toks, h1, h2, h3, by rw [h4]; rfl⟩

/-- The instance of `texts_concat` for the input `x:=5;`. -/
theorem texts_concat_witness :
    (∀ b ∈ ([120, 58, 61, 53, 59] : Bytes), 1 ≤ b ∧ b ≤ 127) ∧
    ∃ toks : List Token,
      (∀ i, i < toks.length → nthToken (New [120, 58, 61, 53, 59]) i = toks[i]?) ∧
      (∀ t ∈ toks, t.Typ ≠ EOF) ∧
      (∃ t, nthToken (New [120, 58, 61, 53, 59]) toks.length = some t ∧ t.Typ = EOF) ∧
      (toks.map Token.Literal).flatten = [120, 58, 61, 53, 59] :=
  ⟨by decide, texts_concat [120, 58, 61, 53, 59] (by decide) (by decide) (by decide)⟩


/-! ## Package `isa`: the conversion routines -/

theorem BytesToInt_IntToBytes (n : Int) (hlo : -2147483648 ≤ n) (hhi : n < 2147483648) :
    BytesToInt (IntToBytes n) = some n := by
  simp only [BytesToInt, IntToBytes, toUint32, toInt32]
  congr 1
  split_ifs <;> omega

theorem IntToBytes_toInt32 (b0 b1 b2 b3 : Nat) (h0 : b0 < 256) (h1 : b1 < 256)
    (h2 : b2 < 256) (h3 : b3 < 256) :
    IntToBytes (toInt32 (b0 + 256 * b1 + 65536 * b2 + 16777216 * b3)) = [b0, b1, b2, b3] := by
  simp only [IntToBytes, toUint32, toInt32]
  split_ifs with h
  · have e : ((((b0 + 256 * b1 + 65536 * b2 + 16777216 * b3) % 4294967296 : Nat) : Int)
        % 4294967296).toNat = b0 + 256 * b1 + 65536 * b2 + 16777216 * b3 := by omega
    rw [e]
    congr 1
    · omega
    congr 1
    · omega
    congr 1
    · omega
    congr 1
    omega
  · have e : ((((b0 + 256 * b1 + 65536 * b2 + 16777216 * b3) % 4294967296 : Nat) : Int)
        - 4294967296) % 4294967296 = ((b0 + 256 * b1 + 65536 * b2 + 16777216 * b3 : Nat) : Int) := by
      omega
    rw [e, Int.toNat_ofNat]
    congr 1
    · omega
    congr 1
    · omega
    congr 1
    · omega
    congr 1
    omega

/-- C15: for every `int32` `n`, `IntToBytes n` is exactly 4 bytes, byte `i` being
`(n mod 2^32) / 256^i mod 256`, the little-endian two's-complement representation of `n`, and
`BytesToInt (IntToBytes n) = n`; conversely for every slice `b` of 4 bytes, `BytesToInt b` is
an `int32` and `IntToBytes (BytesToInt b) = b`. -/
theorem int_bytes_roundtrip (n : Int) (b0 b1 b2 b3 : Nat)
    (hlo : -2147483648 ≤ n) (hhi : n < 2147483648)
    (h0 : b0 < 256) (h1 : b1 < 256) (h2 : b2 < 256) (h3 : b3 < 256) :
    (IntToBytes n).length = 4 ∧
    (∀ i, i < 4 → (IntToBytes n).getD i 0 = (n % 4294967296).toNat / 256 ^ i % 256) ∧
    (∀ b ∈ IntToBytes n, b < 256) ∧
    BytesToInt (IntToBytes n) = some n ∧
    (∃ m, BytesToInt [b0, b1, b2, b3] = some m ∧ -2147483648 ≤ m ∧ m < 2147483648 ∧
      IntToBytes m = [b0, b1, b2, b3]) := by
  refine ⟨rfl, ?_, ?_, BytesToInt_IntToBytes n hlo hhi, _, rfl, ?_, ?_,
    IntToBytes_toInt32 b0 b1 b2 b3 h0 h1 h2 h3⟩
  · intro i hi
    interval_cases i <;> simp [IntToBytes, toUint32]
  · intro b hb
    simp only [IntToBytes, List.mem_cons, List.mem_singleton, List.not_mem_nil, or_false] at hb
    rcases hb with rfl | rfl | rfl | rfl <;> omega
  · unfold toInt32; split_ifs <;> omega
  · unfold toInt32; split_ifs <;> omega

/-- The instance of `int_bytes_roundtrip` for `n = -2` and the bytes 254, 255, 255, 255. -/
theorem int_bytes_roundtrip_witness :
    IntToBytes (-2) = [254, 255, 255, 255] ∧
    (IntToBytes (-2)).length = 4 ∧
    (∀ i, i < 4 → (IntToBytes (-2)).getD i 0 = ((-2 : Int) % 4294967296).toNat / 256 ^ i % 256) ∧
    (∀ b ∈ IntToBytes (-2), b < 256) ∧
    BytesToInt (IntToBytes (-2)) = some (-2) ∧
    (∃ m, BytesToInt [254, 255, 255, 255] = some m ∧ -2147483648 ≤ m ∧ m < 2147483648 ∧
      IntToBytes m = [254, 255, 255, 255]) :=
  ⟨by decide, int_bytes_roundtrip (-2) 254 255 255 255 (by decide) (by decide) (by decide)
    (by decide) (by decide) (by decide)⟩

/-! ## Package `isa`: the two tables -/

theorem lookup_mem {α β : Type} [DecidableEq α] (es : List (α × β)) (k : α) (v : β)
    (h : es.lookup k = some v) : (k, v) ∈ es := by
  induction es with
  | nil => simp at h
  | cons e es ih =>
    obtain ⟨k1, v1⟩ := e
    rw [List.lookup_cons] at h
    by_cases hk : k = k1
    · subst hk; simp at h; subst h; exact List.mem_cons_self _ _
    · have e1 : (k == k1) = false := by simpa using hk
      rw [e1] at h
      exact List.mem_cons_of_mem _ (ih h)

theorem lookup_of_mem {α β : Type} [DecidableEq α] (es : List (α × β)) (k : α) (v : β)
    (hnd : (es.map Prod.fst).Nodup) (h : (k, v) ∈ es) : es.lookup k = some v := by
  induction es with
  | nil => simp at h
  | cons e es ih =>
    obtain ⟨k1, v1⟩ := e
    rw [List.map_cons, List.nodup_cons] at hnd
    rw [List.lookup_cons]
    rcases List.mem_cons.mp h with heq | hmem
    · obtain ⟨rfl, rfl⟩ := Prod.mk.inj heq
      simp
    · have hk : k ≠ k1 := by
        rintro rfl
        exact hnd.1 (List.mem_map.mpr ⟨(k, v), hmem, rfl⟩)
      have e1 : (k == k1) = false := by simpa using hk
      rw [e1]
      exact ih hnd.2 hmem

/-- The map built by `init` from any start map: the entry of a key is the mnemonic of the
visited entry with that opcode, when the opcodes of the visited entries are pairwise
distinct. -/
theorem foldl_init_spec (order : List (String × Nat)) :
    ∀ (acc : Nat → Option String), (order.map Prod.snd).Nodup → ∀ (b : Nat) (m : String),
      order.foldl (fun m e => fun b => if b = e.2 then some e.1 else m b) acc b = some m ↔
        ((m, b) ∈ order ∨ (b ∉ order.map Prod.snd ∧ acc b = some m)) := by
  induction order with
  | nil => intro acc _ b m; simp
  | cons e rest ih =>
    intro acc hnd b m
    obtain ⟨m1, b1⟩ := e
    rw [List.map_cons, List.nodup_cons] at hnd
    rw [List.foldl_cons, ih _ hnd.2]
    by_cases hb : b = b1
    · subst hb
      have hnot : ∀ x, (x, b) ∉ rest := fun x hx =>
        hnd.1 (List.mem_map.mpr ⟨(x, b), hx, rfl⟩)
      constructor
      · rintro (h | ⟨_, h⟩)
        · exact absurd h (hnot m)
        · simp at h; subst h; exact Or.inl (List.mem_cons_self _ _)
      · rintro (h | ⟨h, _⟩)
        · rcases List.mem_cons.mp h with heq | hmem
          · obtain ⟨rfl, _⟩ := Prod.mk.inj heq
            exact Or.inr ⟨hnd.1, by simp⟩
          · exact absurd hmem (hnot m)
        · exact absurd (List.mem_cons_self _ _) h
    · constructor
      · rintro (h | ⟨h1, h2⟩)
        · exact Or.inl (List.mem_cons_of_mem _ h)
        · simp only [if_neg hb] at h2
          exact Or.inr ⟨by simp [hb, h1], h2⟩
      · rintro (h | ⟨h1, h2⟩)
        · rcases List.mem_cons.mp h with heq | hmem
          · obtain ⟨_, rfl⟩ := Prod.mk.inj heq
            exact absurd rfl hb
          · exact Or.inl hmem
        · simp only [List.map_cons, List.mem_cons, not_or] at h1
          exact Or.inr ⟨h1.2, by simp only [if_neg hb]; exact h2⟩

theorem MnemonicToOpcode_keys_nodup : (MnemonicToOpcode.map Prod.fst).Nodup := by decide

theorem MnemonicToOpcode_values_nodup : (MnemonicToOpcode.map Prod.snd).Nodup := by decide

/-- Whatever the order in which `init` visits the entries, the reverse map has the entry
`b ↦ m` exactly when `MnemonicToOpcode` has the entry `m ↦ b`. -/
theorem init_spec (order : List (String × Nat)) (hp : order.Perm MnemonicToOpcode)
    (b : Nat) (m : String) :
    initOpcodeToMnemonic order b = some m ↔ (m, b) ∈ MnemonicToOpcode := by
  have hnd : (order.map Prod.snd).Nodup :=
    (hp.map Prod.snd).nodup_iff.mpr MnemonicToOpcode_values_nodup
  unfold initOpcodeToMnemonic
  rw [foldl_init_spec order _ hnd b m, hp.mem_iff]
  simp

/-- The order in which `init` visits the entries of `MnemonicToOpcode` does not matter. -/
theorem init_order_irrelevant (order : List (String × Nat))
    (hp : order.Perm MnemonicToOpcode) : initOpcodeToMnemonic order = OpcodeToMnemonic := by
  funext b
  have h1 := init_spec order hp b
  have h2 := init_spec MnemonicToOpcode (List.Perm.refl _) b
  cases h : initOpcodeToMnemonic order b with
  | none =>
    cases h' : OpcodeToMnemonic b with
    | none => rfl
    | some m =>
      have := (h1 m).mpr ((h2 m).mp h')
      rw [h] at this; exact absurd this (by simp)
  | some m => exact ((h2 m).mpr ((h1 m).mp h)).symm

/-- C16: after `init`, in whatever order it visits the entries, `OpcodeToMnemonic` is the
exact reverse of `MnemonicToOpcode`: `OpcodeToMnemonic[MnemonicToOpcode[m]] = m` for every
mnemonic `m` of `MnemonicToOpcode`, `MnemonicToOpcode[OpcodeToMnemonic[b]] = b` for every
opcode `b` of `OpcodeToMnemonic`, no two mnemonics share an opcode, and both tables have 24
entries. -/
theorem tables_reverse (order : List (String × Nat)) (hp : order.Perm MnemonicToOpcode) :
    (∀ m b, MnemonicToOpcode.lookup m = some b → initOpcodeToMnemonic order b = some m) ∧
    (∀ b m, initOpcodeToMnemonic order b = some m → MnemonicToOpcode.lookup m = some b) ∧
    (∀ m1 m2 b, MnemonicToOpcode.lookup m1 = some b → MnemonicToOpcode.lookup m2 = some b →
      m1 = m2) ∧
    MnemonicToOpcode.length = 24 ∧ (MnemonicToOpcode.map Prod.fst).Nodup ∧
    ((List.range 256).filter fun b => (initOpcodeToMnemonic order b).isSome).length = 24 ∧
    (∀ b, 256 ≤ b → initOpcodeToMnemonic order b = none) := by
  have hsome : ∀ b, (initOpcodeToMnemonic order b).isSome = true ↔
      b ∈ MnemonicToOpcode.map Prod.snd := by
    intro b
    rw [Option.isSome_iff_exists]
    constructor
    · rintro ⟨m, hm⟩
      exact List.mem_map.mpr ⟨(m, b), (init_spec order hp b m).mp hm, rfl⟩
    · intro h
      obtain ⟨⟨m, b1⟩, h1, h2⟩ := List.mem_map.mp h
      obtain rfl : b1 = b := h2
      exact ⟨m, (init_spec order hp b1 m).mpr h1⟩
  refine ⟨?_, ?_, ?_, rfl, MnemonicToOpcode_keys_nodup, ?_, ?_⟩
  · intro m b h
    exact (init_spec order hp b m).mpr (lookup_mem _ _ _ h)
  · intro b m h
    exact lookup_of_mem _ _ _ MnemonicToOpcode_keys_nodup ((init_spec order hp b m).mp h)
  · intro m1 m2 b h1 h2
    have e1 := (init_spec order hp b m1).mpr (lookup_mem _ _ _ h1)
    have e2 := (init_spec order hp b m2).mpr (lookup_mem _ _ _ h2)
    rw [e1] at e2
    exact Option.some.inj e2
  · have e : ((List.range 256).filter fun b => (initOpcodeToMnemonic order b).isSome) =
        (List.range 256).filter fun b => decide (b ∈ MnemonicToOpcode.map Prod.snd) := by
      apply List.filter_congr
      intro b _
      rw [Bool.eq_iff_iff, hsome b]; simp
    rw [e]; decide
  · intro b hb
    cases h : initOpcodeToMnemonic order b with
    | none => rfl
    | some m =>
      have hm : b ∈ MnemonicToOpcode.map Prod.snd :=
        List.mem_map.mpr ⟨(m, b), (init_spec order hp b m).mp h, rfl⟩
      have hall : ∀ x ∈ MnemonicToOpcode.map Prod.snd, x < 256 := by decide
      exact absurd (hall b hm) (by omega)

/-- The instance of `tables_reverse` for the source order of the entries, with two lookups
evaluated. -/
theorem tables_reverse_witness :
    MnemonicToOpcode.lookup "CALL" = some 64 ∧ initOpcodeToMnemonic MnemonicToOpcode 64 = some "CALL" ∧
    (∀ b m, initOpcodeToMnemonic MnemonicToOpcode b = some m →
      MnemonicToOpcode.lookup m = some b) :=
  ⟨by decide, (tables_reverse MnemonicToOpcode (List.Perm.refl _)).1 "CALL" 64 (by decide),
    (tables_reverse MnemonicToOpcode (List.Perm.refl _)).2.1⟩


/-! ## The disassembly loop -/

theorem take4_drop (buf : Bytes) (a : Nat) (h : a + 4 ≤ buf.length) :
    (buf.drop a).take 4 =
      [buf.getD a 0, buf.getD (a + 1) 0, buf.getD (a + 2) 0, buf.getD (a + 3) 0] := by
  rw [drop_getD buf a (by omega), drop_getD buf (a + 1) (by omega),
    drop_getD buf (a + 2) (by omega), drop_getD buf (a + 3) (by omega)]
  rfl

/-- The argument that the loop decodes at address `a` is the little-endian reading of the
four bytes at `a`. -/
theorem slice_BytesToInt (buf : Bytes) (a : Nat) (h : a + 4 ≤ buf.length) :
    (slice buf a (a + 4)).bind BytesToInt = some (leInt32 buf a) := by
  unfold slice
  rw [if_pos ⟨by omega, h⟩, show a + 4 - a = 4 by omega, take4_drop buf a h]
  rfl

theorem specStride_oneArg (op : Nat) (h : op ∈ oneArgOpcodes) : specStride op = 5 := by
  unfold specStride; unfold oneArgOpcodes at h; rw [if_pos h]

theorem specStride_call (op : Nat) (h1 : op ∉ oneArgOpcodes) (h2 : op = OpCall) :
    specStride op = 9 := by
  unfold specStride; unfold oneArgOpcodes at h1; rw [if_neg h1, if_pos h2]

theorem specStride_other (op : Nat) (h1 : op ∉ oneArgOpcodes) (h2 : op ≠ OpCall) :
    specStride op = 1 := by
  unfold specStride; unfold oneArgOpcodes at h1; rw [if_neg h1, if_neg h2]

theorem printedLines_cons (i : Nat × String × List Int) (is : List (Nat × String × List Int)) :
    printedLines (i :: is) = [.instr i.1 i.2.1, .args i.2.2] ++ printedLines is := by
  simp [printedLines]

/-- The loop of `Disassemble` from address `pc` follows the linear decoding of the
specification: it returns, without error exactly when the decoding stops at the end of the
buffer, and then it has printed the lines of the decoded instructions; when the decoding stops
before the end, the error is the one of the opcode at which it stops. -/
theorem disassembleLoop_spec (buf : Bytes) : ∀ (fuel pc : Nat) (out : List Printed),
    pc ≤ buf.length → buf.length < pc + fuel →
    ∃ r, disassembleLoop buf fuel pc out = some r ∧
      (specWalk buf fuel pc).2 ≤ buf.length ∧
      (r.err = none ↔ (specWalk buf fuel pc).2 = buf.length) ∧
      (r.err = none →
        r.pc = buf.length ∧ r.out = out ++ printedLines (specWalk buf fuel pc).1) ∧
      ((specWalk buf fuel pc).2 < buf.length →
        (OpcodeToMnemonic (buf.getD (specWalk buf fuel pc).2 0) = none ∧
          r.err = some (.unknownOpcode (specWalk buf fuel pc).2
            (buf.getD (specWalk buf fuel pc).2 0))) ∨
        (∃ mn, OpcodeToMnemonic (buf.getD (specWalk buf fuel pc).2 0) = some mn ∧
          buf.length <
            (specWalk buf fuel pc).2 + specStride (buf.getD (specWalk buf fuel pc).2 0) ∧
          r.err = some (.unexpectedEnd ((specWalk buf fuel pc).2 + 1) mn))) := by
  intro fuel
  induction fuel with
  | zero => intro pc out h1 h2; omega
  | succ fuel ih =>
    intro pc out hle hfuel
    by_cases hlt : pc < buf.length
    · cases hm : OpcodeToMnemonic (buf.getD pc 0) with
      | none =>
        have e1 : disassembleLoop buf (fuel + 1) pc out =
            some ⟨out, pc, some (.unknownOpcode pc (buf.getD pc 0))⟩ := by
          simp only [disassembleLoop, if_pos hlt, hm]
        have e2 : specWalk buf (fuel + 1) pc = ([], pc) := by
          simp only [specWalk, if_pos hlt, hm]
        rw [e1, e2]
        exact ⟨_, rfl, hle, ⟨fun h => by simp at h, fun h => by simp at h; omega⟩,
          fun h => by simp at h, fun _ => Or.inl ⟨hm, rfl⟩⟩
      | some mn =>
        by_cases h1 : buf.getD pc 0 ∈ oneArgOpcodes
        · have hs := specStride_oneArg _ h1
          by_cases ht : pc + 1 + 4 > buf.length
          · have e1 : disassembleLoop buf (fuel + 1) pc out =
                some ⟨out ++ [.instr pc mn], pc + 1, some (.unexpectedEnd (pc + 1) mn)⟩ := by
              simp only [disassembleLoop, if_pos hlt, hm, if_pos h1, if_pos ht]
            have e2 : specWalk buf (fuel + 1) pc = ([], pc) := by
              simp only [specWalk, if_pos hlt, hm, hs]
              rw [if_neg (by omega)]
            rw [e1, e2]
            exact ⟨_, rfl, hle, ⟨fun h => by simp at h, fun h => by simp at h; omega⟩,
              fun h => by simp at h, fun _ => Or.inr ⟨mn, hm, by rw [hs]; omega, rfl⟩⟩
          · have harg := slice_BytesToInt buf (pc + 1) (by omega)
            have e1 : disassembleLoop buf (fuel + 1) pc out =
                disassembleLoop buf fuel (pc + 1 + 4)
                  (out ++ [.instr pc mn] ++ [.args [leInt32 buf (pc + 1)]]) := by
              simp only [disassembleLoop, if_pos hlt, hm, if_pos h1, if_neg ht, harg]
            have e2 : specWalk buf (fuel + 1) pc =
                ((pc, mn, [leInt32 buf (pc + 1)]) :: (specWalk buf fuel (pc + 5)).1,
                  (specWalk buf fuel (pc + 5)).2) := by
              simp only [specWalk, if_pos hlt, hm, hs, specArgs]
              rw [if_pos (by omega)]; rfl
            obtain ⟨r, a1, a2, a3, a4, a5⟩ :=
              ih (pc + 5) (out ++ [.instr pc mn] ++ [.args [leInt32 buf (pc + 1)]])
                (by omega) (by omega)
            rw [e1, e2]
            refine ⟨r, a1, a2, a3, fun h => ⟨(a4 h).1, ?_⟩, a5⟩
            rw [(a4 h).2, printedLines_cons]; simp
        · by_cases h2 : buf.getD pc 0 = OpCall
          · have hs := specStride_call _ h1 h2
            by_cases ht : pc + 1 + 8 > buf.length
            · have e1 : disassembleLoop buf (fuel + 1) pc out =
                  some ⟨out ++ [.instr pc mn], pc + 1, some (.unexpectedEnd (pc + 1) mn)⟩ := by
                simp only [disassembleLoop, if_pos hlt, hm, if_neg h1, if_pos h2, if_pos ht]
              have e2 : specWalk buf (fuel + 1) pc = ([], pc) := by
                simp only [specWalk, if_pos hlt, hm, hs]
                rw [if_neg (by omega)]
              rw [e1, e2]
              exact ⟨_, rfl, hle, ⟨fun h => by simp at h, fun h => by simp at h; omega⟩,
                fun h => by simp at h, fun _ => Or.inr ⟨mn, hm, by rw [hs]; omega, rfl⟩⟩
            · have harg1 := slice_BytesToInt buf (pc + 1) (by omega)
              have harg2 := slice_BytesToInt buf (pc + 1 + 4) (by omega)
              have e1 : disassembleLoop buf (fuel + 1) pc out =
                  disassembleLoop buf fuel (pc + 1 + 4 + 4)
                    (out ++ [.instr pc mn] ++
                      [.args [leInt32 buf (pc + 1), leInt32 buf (pc + 1 + 4)]]) := by
                simp only [disassembleLoop, if_pos hlt, hm, if_neg h1, if_pos h2, if_neg ht,
                  harg1, harg2]
              have e2 : specWalk buf (fuel + 1) pc =
                  ((pc, mn, [leInt32 buf (pc + 1), leInt32 buf (pc + 5)]) ::
                      (specWalk buf fuel (pc + 9)).1,
                    (specWalk buf fuel (pc + 9)).2) := by
                simp only [specWalk, if_pos hlt, hm, hs, specArgs]
                rw [if_pos (by omega)]; rfl
              obtain ⟨r, a1, a2, a3, a4, a5⟩ :=
                ih (pc + 9) (out ++ [.instr pc mn] ++
                    [.args [leInt32 buf (pc + 1), leInt32 buf (pc + 1 + 4)]])
                  (by omega) (by omega)
              rw [e1, e2]
              refine ⟨r, a1, a2, a3, fun h => ⟨(a4 h).1, ?_⟩, a5⟩
              rw [(a4 h).2, printedLines_cons]; simp
          · have hs := specStride_other _ h1 h2
            have e1 : disassembleLoop buf (fuel + 1) pc out =
                disassembleLoop buf fuel (pc + 1) (out ++ [.instr pc mn] ++ [.args []]) := by
              simp only [disassembleLoop, if_pos hlt, hm, if_neg h1, if_neg h2]
            have e2 : specWalk buf (fuel + 1) pc =
                ((pc, mn, []) :: (specWalk buf fuel (pc + 1)).1,
                  (specWalk buf fuel (pc + 1)).2) := by
              simp only [specWalk, if_pos hlt, hm, hs, specArgs]
              rw [if_pos (by omega)]; rfl
            obtain ⟨r, a1, a2, a3, a4, a5⟩ :=
              ih (pc + 1) (out ++ [.instr pc mn] ++ [.args []]) (by omega) (by omega)
            rw [e1, e2]
            refine ⟨r, a1, a2, a3, fun h => ⟨(a4 h).1, ?_⟩, a5⟩
            rw [(a4 h).2, printedLines_cons]; simp
    · have e1 : disassembleLoop buf (fuel + 1) pc out = some ⟨out, pc, none⟩ := by
        simp only [disassembleLoop, if_neg hlt]
      have e2 : specWalk buf (fuel + 1) pc = ([], pc) := by
        simp only [specWalk, if_neg hlt]
      rw [e1, e2]
      exact ⟨_, rfl, hle, ⟨fun _ => by simp; omega, fun _ => rfl⟩,
        fun _ => ⟨by simp; omega, by simp [printedLines]⟩, fun h => by simp at h; omega⟩

/-- C14: on every byte buffer the loop of `Disassemble` returns.  With the linear decoding
of the specification from offset 0 (stride 5 for the eight opcodes with one 4-byte argument,
9 for `CALL`, 1 for every other opcode of the table), it returns an error if and only if the
decoding stops before the end of the buffer, at an opcode byte that is not in the opcode table
or at an instruction whose argument bytes extend past the end of the buffer, and the error
names that address; otherwise it ends with `pc = len(buffer)`, having printed for each
instruction, in order, its address and mnemonic and its little-endian decoded arguments. -/
theorem Disassemble_spec (buf : Bytes) :
    ∃ r, Disassemble buf = some r ∧
      (r.err ≠ none ↔
        (specWalk buf (buf.length + 1) 0).2 < buf.length ∧
        (OpcodeToMnemonic (buf.getD (specWalk buf (buf.length + 1) 0).2 0) = none ∨
          buf.length < (specWalk buf (buf.length + 1) 0).2 +
            specStride (buf.getD (specWalk buf (buf.length + 1) 0).2 0))) ∧
      ((specWalk buf (buf.length + 1) 0).2 < buf.length →
        (OpcodeToMnemonic (buf.getD (specWalk buf (buf.length + 1) 0).2 0) = none ∧
          r.err = some (.unknownOpcode (specWalk buf (buf.length + 1) 0).2
            (buf.getD (specWalk buf (buf.length + 1) 0).2 0))) ∨
        (∃ mn, OpcodeToMnemonic (buf.getD (specWalk buf (buf.length + 1) 0).2 0) = some mn ∧
          buf.length < (specWalk buf (buf.length + 1) 0).2 +
            specStride (buf.getD (specWalk buf (buf.length + 1) 0).2 0) ∧
          r.err = some (.unexpectedEnd ((specWalk buf (buf.length + 1) 0).2 + 1) mn))) ∧
      (r.err = none →
        r.pc = buf.length ∧ (specWalk buf (buf.length + 1) 0).2 = buf.length ∧
        r.out = printedLines (specWalk buf (buf.length + 1) 0).1) := by
  obtain ⟨r, a1, a2, a3, a4, a5⟩ :=
    disassembleLoop_spec buf (buf.length + 1) 0 [] (Nat.zero_le _) (by omega)
  refine ⟨r, a1, ?_, a5, fun h => ⟨(a4 h).1, a3.mp h, by simpa using (a4 h).2⟩⟩
  constructor
  · intro hne
    have hlt : (specWalk buf (buf.length + 1) 0).2 < buf.length := by
      by_contra hge
      exact hne (a3.mpr (by omega))
    refine ⟨hlt, ?_⟩
    rcases a5 hlt with ⟨h, _⟩ | ⟨mn, _, h, _⟩
    · exact Or.inl h
    · exact Or.inr h
  · rintro ⟨hlt, _⟩ he
    have := a3.mp he
    omega

end ToyPascal
